import Mathlib

/-!
Verification of the Economic Indicators Extractor (EIE) pipeline.

This file gives a shallow embedding of the core of `src/main.py`:
the gap filler (`forward_backward_fill_indicator`), the split-ratio
formatter (`compute_split_ratio_str`), the per-(indicator, interval)
ingestion core of `process_economic_indicators`, the error-handling
control flow of the two fetch loops, the federal-funds-rate retention
and the pre-insertion event sort in `process_events`, and the event
reconciler `batch_insert_events`.

Modelling conventions:
- Python `datetime.date` values of the indicator pipeline are embedded
  as `Int` ordinals (`date.toordinal`); `timedelta(days = 5)` becomes
  subtraction by 5.  This is an order isomorphism, and the indicator
  code uses dates only through comparison and the 5-day shift.
- Event dates are embedded as `PyDate` (year, month, day).  The code
  compares dates through their zero-padded `%Y-%m-%d` strings; on
  valid `datetime.date` values (year at most 9999, month at most 12,
  day at most 31) that string is order- and equality-isomorphic to the
  numeral `y * 10000 + m * 100 + d`, which `dateOrd` computes, with the
  sort sentinel string "9999-12-31" corresponding to 99991231.
- JSON detail payloads are embedded as association lists of `JVal`.
  `json.dumps` / `json.loads` round-trips are the identity on them, so
  rows store payloads directly instead of serialized strings.
- Python floats produced as `2.1` / `2.2` sort priorities are scaled
  by 10 to naturals (21 / 22, and `10 * k` for a kind code `k`), an
  order isomorphism of the values the code produces.
-/

namespace EIE

/-- A JSON scalar as found in event detail payloads: `null`, a string,
an integer (Python `int` after `json.loads`), or a non-integral number.
Python distinguishes `int` from `float` via `isinstance` checks, hence
the two numeric constructors. -/
inductive JVal : Type where
  | null : JVal
  | str : String → JVal
  | jint : Int → JVal
  | jnum : Rat → JVal
deriving DecidableEq

/-- A JSON object (Python dict) as an association list; keys are
unique in every payload the program builds. -/
abbrev Payload := List (String × JVal)

/-- Python truthiness of a JSON scalar: `None`, the empty string and
zero are falsy. -/
def pyTruthy : JVal → Bool
  | .null => false
  | .str s => s != ""
  | .jint n => n != 0
  | .jnum q => q != 0

/-- `d.get(k)` on a possibly absent dict: `none` models Python `None`
(either the dict is `None`-like or the key is absent). -/
def pyGet (p : Option Payload) (k : String) : Option JVal :=
  match p with
  | none => none
  | some l => l.lookup k

/-- `x is None` after a `.get`: the key is absent or its value is JSON
null. -/
def pyGetIsNone (p : Option Payload) (k : String) : Bool :=
  match pyGet p k with
  | none => true
  | some .null => true
  | some _ => false

/-- Python `a or b` on two optional JSON scalars: the first operand if
it is truthy, otherwise the second. -/
def pyOr (a b : Option JVal) : Option JVal :=
  match a with
  | some v => if pyTruthy v then some v else b
  | none => b

/-- `str(v)` for the scalars that can reach `str(q)` in `_extract_qy`
(the `jnum` clause is an approximation; quarters are always strings or
ints in the data the program builds). -/
def pyStr : JVal → String
  | .null => "None"
  | .str s => s
  | .jint n => toString n
  | .jnum q => toString q

/-- A Python `datetime.date`.  Valid values have `1 ≤ m ≤ 12`,
`1 ≤ d ≤ 31`, `1 ≤ y ≤ 9999`. -/
structure PyDate : Type where
  y : Nat
  m : Nat
  d : Nat
deriving DecidableEq

/-- Numeral equivalent of the zero-padded `%Y-%m-%d` string of a date:
on valid dates, string comparison and equality agree with this
numeral's. -/
def dateOrd (d : PyDate) : Nat := d.y * 10000 + d.m * 100 + d.d

/-- `f"Q{(month-1)//3 + 1}"` — the quarter string derived from a
month. -/
def quarterOfMonth (m : Nat) : String := "Q" ++ toString ((m - 1) / 3 + 1)

/-! ## Split-ratio formatting (`compute_split_ratio_str`) -/

/-- The input to `compute_split_ratio_str`: absent (`None` or the
empty string), a value `Decimal(str(factor))` fails to parse, or a
parsed decimal value. -/
inductive SplitFactor : Type where
  | missing : SplitFactor
  | unparseable : SplitFactor
  | value : Rat → SplitFactor

/-- `Decimal.quantize(Decimal(1))` with the default `ROUND_HALF_EVEN`
context: round to the nearest integer, ties to the even one. -/
def roundHalfEven (q : Rat) : Int :=
  let f : Int := ⌊q⌋
  let r : Rat := q - (f : Rat)
  if r < 1/2 then f
  else if 1/2 < r then f + 1
  else if f % 2 = 0 then f else f + 1

/-- `compute_split_ratio_str` from `main.py` (lines 64-77).  The
`q = 0` case models the `DivisionByZero` raised by `Decimal(1) / f`,
caught by the enclosing `except` which returns `None`.  Decimal
division carries 28 significant digits; the exact rational quotient
used here agrees with it on every integer-rounding outcome the
program can reach. -/
def compute_split_ratio_str : SplitFactor → Option String
  | .missing => none
  | .unparseable => none
  | .value q =>
    if q = 1 then none
    else if 1 < q then some (toString (roundHalfEven q) ++ "-for-1")
    else if q = 0 then none
    else some ("Reverse " ++ toString (roundHalfEven (1 / q)) ++ "-for-1")

/-! ## Gap filler (`forward_backward_fill_indicator`) -/

/-- Dates of the indicator pipeline: `date.toordinal`. -/
abbrev IndDate := Int

/-- One fetched row of `(date, column value)`; `none` is SQL NULL. -/
abbrev IndRecord := IndDate × Option Rat

/-- `next((r[1] for r in records if r[1] is not None), None)` — the
first non-null value. -/
def firstValid (records : List IndRecord) : Option Rat :=
  records.findSome? (fun r => r.2)

/-- The update-collection loop: track the last known value (seeded by
the first valid value) and emit `(last_known_value, date)` for every
null cell. -/
def fbfGo (last : Rat) : List IndRecord → List (Rat × IndDate)
  | [] => []
  | (_, some v) :: rest => fbfGo v rest
  | (d, none) :: rest => (last, d) :: fbfGo last rest

/-- The list of `(value, date)` updates `forward_backward_fill_indicator`
executes (lines 17-40 of `main.py`). -/
def fbfUpdates (records : List IndRecord) : List (Rat × IndDate) :=
  match records with
  | [] => []
  | _ =>
    match firstValid records with
    | none => []
    | some fv => fbfGo fv records

/-- The effect of one queued update list on one cell, through
`UPDATE ... SET col = v WHERE date = d AND col IS NULL`: a null cell
receives the first queued update bearing its date (once set it is no
longer null, so later updates at the same date are no-ops); non-null
cells are untouched. -/
def fillCell (ups : List (Rat × IndDate)) (r : IndRecord) : IndRecord :=
  match r.2 with
  | some v => (r.1, some v)
  | none => (r.1, (ups.find? (fun u => u.2 == r.1)).map (fun u => u.1))

/-- The column after executing the generated updates. -/
def applyFbf (records : List IndRecord) : List IndRecord :=
  records.map (fillCell (fbfUpdates records))

/-- Specification-side description of the gap fill, written from the
spec's words: every null cell after a known value receives the last
known value, every null cell before the first non-null receives that
first value.  To be compared with `applyFbf`. -/
def specGo (last : Rat) : List IndRecord → List IndRecord
  | [] => []
  | (d, some v) :: rest => (d, some v) :: specGo v rest
  | (d, none) :: rest => (d, some last) :: specGo last rest

/-- Specification-side gap fill of a whole column. -/
def specFill (records : List IndRecord) : List IndRecord :=
  match firstValid records with
  | none => records
  | some fv => specGo fv records

/-! ## Indicator ingestion core (`process_economic_indicators`) -/

/-- One raw upstream entry: a parsed date and the raw value field.
`dot` and `empty` are the `'.'` and `''` sentinels skipped outright;
`bad` is a value whose `float(...)` conversion raises. -/
inductive RawVal : Type where
  | dot : RawVal
  | empty : RawVal
  | num : Rat → RawVal
  | bad : RawVal
deriving DecidableEq

structure IndEntry : Type where
  date : IndDate
  val : RawVal
deriving DecidableEq

/-- Per-column stored state: the rows of the interval's log table
restricted to one column, as `(date, column value)`. -/
abbrev IndState := List (IndDate × Option Rat)

/-- `date(2000, 1, 1).toordinal()`, the default watermark when the
column has no value yet. -/
def d2000 : IndDate := 730120

/-- Dates whose column value is non-null. -/
def nonNullDates (s : IndState) : List IndDate :=
  s.filterMap (fun r => if r.2.isSome then some r.1 else none)

/-- `SELECT MAX(date) WHERE col IS NOT NULL`, defaulted to 2000-01-01:
the watermark. -/
def watermark (s : IndState) : IndDate :=
  match nonNullDates s with
  | [] => d2000
  | x :: xs => xs.foldl max x

/-- `"TNPTP_value" in col or "DTCMRP_value" in col or col in [...]` —
the columns stored as integers. -/
def isIntCol (col : String) : Bool :=
  col ∈ ["MTNPTP_value", "TNPTP_value", "DTCMRP_value"]
    || decide ("TNPTP_value".data <:+: col.data)
    || decide ("DTCMRP_value".data <:+: col.data)

/-- Python `int(float(v))`: truncation toward zero. -/
def truncQ (q : Rat) : Int := if 0 ≤ q then ⌊q⌋ else ⌈q⌉

/-- Value conversion: skip `'.'` and `''`, convert to int for the
integer columns, skip on conversion failure. -/
def convVal (col : String) (v : RawVal) : Option Rat :=
  match v with
  | .dot => none
  | .empty => none
  | .bad => none
  | .num q => some (if isIntCol col then (truncQ q : Rat) else q)

/-- Python dict upsert preserving insertion order. -/
def upsert (dd : List (IndDate × Rat)) (d : IndDate) (q : Rat) :
    List (IndDate × Rat) :=
  if dd.any (fun p => p.1 == d) then
    dd.map (fun p => if p.1 == d then (d, q) else p)
  else dd ++ [(d, q)]

/-- One iteration of the `date_data` accumulation loop (lines 190-225
of `main.py`): apply the weekly federal-funds 5-day back-shift, drop
the entry if it lands exactly on the watermark after the shift, skip
unconvertible values, and key the rest by date. -/
def ddStep (col : String) (prev : IndDate) (dd : List (IndDate × Rat))
    (e : IndEntry) : List (IndDate × Rat) :=
  let date := if col == "WEFFRP_value" then e.date - 5 else e.date
  if col == "WEFFRP_value" && date == prev then dd
  else
    match convVal col e.val with
    | none => dd
    | some q => upsert dd date q

/-- The whole `date_data` accumulation loop. -/
def buildDateData (col : String) (prev : IndDate) (newData : List IndEntry) :
    List (IndDate × Rat) :=
  newData.foldl (ddStep col prev) []

/-- `new_data`: entries strictly after the watermark, restored to
chronological order. -/
def newData (prev : IndDate) (entries : List IndEntry) : List IndEntry :=
  (entries.filter (fun e => prev < e.date)).reverse

/-- The update/insert split (lines 236-247): dates that already have a
row become updates `(value, date)`, the rest become inserts
`(date, value)`. -/
structure IndPlan : Type where
  updates : List (Rat × IndDate)
  inserts : List (IndDate × Rat)
deriving DecidableEq

def hasDate (s : IndState) (d : IndDate) : Bool :=
  s.any (fun r => r.1 == d)

def ingestPlan (col : String) (s : IndState) (entries : List IndEntry) :
    IndPlan :=
  let dd := buildDateData col (watermark s) (newData (watermark s) entries)
  { updates := (dd.filter (fun p => hasDate s p.1)).map (fun p => (p.2, p.1))
    inserts := dd.filter (fun p => !hasDate s p.1) }

/-- One queued `UPDATE` statement: set the column of the row bearing
the update's date (the table holds at most one row per date). -/
def applyOneUpdate (s : IndState) (u : Rat × IndDate) : IndState :=
  s.map (fun r => if r.1 == u.2 then (r.1, some u.1) else r)

/-- Executing the queued `UPDATE` statements in order. -/
def applyIndUpdates (s : IndState) (ups : List (Rat × IndDate)) : IndState :=
  ups.foldl applyOneUpdate s

/-- The stored state after one ingestion run of a column. -/
def ingestState (col : String) (s : IndState) (entries : List IndEntry) :
    IndState :=
  let plan := ingestPlan col s entries
  applyIndUpdates s plan.updates ++ plan.inserts.map (fun p => (p.1, some p.2))

/-! ## Error-handling control flow of the two fetch loops -/

/-- A Python exception, as far as the handlers distinguish them. -/
inductive PyErr : Type where
  | typeError : PyErr
  | valueError : PyErr
  | other : String → PyErr
deriving DecidableEq

/-- A raw indicator entry before `strptime`: `none` models a date
string that makes `strptime` raise. -/
structure RawIndEntry : Type where
  date : Option IndDate
deriving DecidableEq

/-- The two possible calls of one indicator's fetch function: with the
interval argument and without. -/
structure IndFetch : Type where
  withArg : Except PyErr (List RawIndEntry)
  withoutArg : Except PyErr (List RawIndEntry)

/-- Lines 161-164 of `main.py`: call with the argument when the
indicator name asks for it, retry without it on `TypeError` only; any
other exception (and one raised by the retry) propagates. -/
def fetchIndicatorData (f : IndFetch) (argful : Bool) :
    Except PyErr (List RawIndEntry) :=
  match (if argful then f.withArg else f.withoutArg) with
  | .ok d => .ok d
  | .error .typeError => f.withoutArg
  | .error e => .error e

/-- Line 178: `datetime.strptime(entry['date'], ...)` over the fetched
list; a malformed date raises and the exception propagates. -/
def parseIndDates : List RawIndEntry → Except PyErr (List IndDate)
  | [] => .ok []
  | e :: rest =>
    match e.date with
    | none => .error .valueError
    | some d => (parseIndDates rest).map (fun ds => d :: ds)

/-- One (indicator, interval) pair of the ingestion loop, reduced to
what can raise: its fetch behaviour and whether the fetch takes the
interval argument. -/
structure IndPair : Type where
  fetch : IndFetch
  argful : Bool

/-- Fetch-and-parse of one pair; there is no handler around it other
than the `TypeError` retry. -/
def indPairStep (p : IndPair) : Except PyErr (List IndDate) :=
  match fetchIndicatorData p.fetch p.argful with
  | .error e => .error e
  | .ok d => parseIndDates d

/-- The pair loop of `process_economic_indicators`: pairs are
processed in order and the first uncaught exception aborts the whole
loop (there is no per-pair handler). -/
def processIndicatorPairs : List IndPair → Except PyErr (List (List IndDate))
  | [] => .ok []
  | p :: ps =>
    match indPairStep p with
    | .error e => .error e
    | .ok d => (processIndicatorPairs ps).map (fun ds => d :: ds)

/-- A canonical event record as produced by the event normalizer. -/
structure NewEvent : Type where
  event_pk : Nat
  announcement_date : Option PyDate
  start_date : Option PyDate
  details : Option Payload
deriving DecidableEq

/-- Warning emitted when the body of the per-event-kind `try` raises
(line 677). -/
def kindExceptionWarning (kind : String) : String :=
  "Exception getting " ++ kind

/-- The per-event-kind loop of `process_events` (lines 542-677): for
each kind the `try` body either raises at some point (fetch or parse),
producing one warning, or completes with its warnings and events; the
loop always continues with the remaining kinds. -/
def processEventKinds :
    List (String × Except PyErr (List String × List NewEvent)) →
    List String × List NewEvent
  | [] => ([], [])
  | (kind, r) :: rest =>
    let step : List String × List NewEvent :=
      match r with
      | .error _ => ([kindExceptionWarning kind], [])
      | .ok out => out
    let restOut := processEventKinds rest
    (step.1 ++ restOut.1, step.2 ++ restOut.2)

/-! ## Federal-funds-rate retention (`process_events`, lines 476-527) -/

/-- `sorted({(d, v) for d, v in parsed}, key=lambda x: x[0],
reverse=True)[:12]`: deduplicate by the full `(date, value)` pair,
sort by date descending (stable), keep at most 12. -/
def retainRecentRates (parsed : List (IndDate × String)) :
    List (IndDate × String) :=
  (List.insertionSort (fun a b : IndDate × String => b.1 ≤ a.1)
    parsed.dedup).take 12

/-! ## Pre-insertion event sort (`process_events`, lines 697-711) -/

/-- The date component of `sort_key`: the `%Y-%m-%d` string, with
`'9999-12-31'` for events with no announcement date, embedded through
`dateOrd`. -/
def sortDateKey (e : NewEvent) : Nat :=
  match e.announcement_date with
  | some d => dateOrd d
  | none => 99991231

/-- The type-priority component of `sort_key`, scaled by 10: actual
earnings (kind 2 with a truthy details dict whose `estimate` is
`None`) get 21, other kind-2 events get 22, and any other kind `k`
gets `10 * k`. -/
def sortPrio (e : NewEvent) : Nat :=
  if e.event_pk == 2 then
    let details := e.details.getD []
    if details != [] && pyGetIsNone e.details "estimate" then 21 else 22
  else 10 * e.event_pk

def sortKey (e : NewEvent) : Nat × Nat := (sortDateKey e, sortPrio e)

/-- Lexicographic comparison of the Python `(date_str, priority)` sort
keys. -/
def sortKeyLE (a b : NewEvent) : Prop :=
  sortDateKey a < sortDateKey b ∨
    (sortDateKey a = sortDateKey b ∧ sortPrio a ≤ sortPrio b)

instance : DecidableRel sortKeyLE := fun a b => by
  unfold sortKeyLE; infer_instance

/-- Strict version: `a` is ordered strictly before `b`. -/
def sortKeyLT (a b : NewEvent) : Prop :=
  sortDateKey a < sortDateKey b ∨
    (sortDateKey a = sortDateKey b ∧ sortPrio a < sortPrio b)

/-- `all_events.sort(key=sort_key)`: a stable sort by the key above. -/
def sortEvents (events : List NewEvent) : List NewEvent :=
  List.insertionSort sortKeyLE events

/-! ## Event reconciler (`batch_insert_events`) -/

/-- A stored row of `asset_events_data`, restricted to the columns the
reconciler reads and writes.  `notes` holds the payload the stored
JSON string parses to (`none` for an empty/NULL notes column). -/
structure Row : Type where
  pk : Nat
  id : Nat
  eventPk : Nat
  ann : Option PyDate
  start : Option PyDate
  notes : Option Payload
deriving DecidableEq

/-- The identity key `(event kind, announcement date, start date)`.
The code compares `%Y-%m-%d` strings (with `''` for a missing date);
on valid dates that is equality-isomorphic to this tuple. -/
abbrev EventKey := Nat × Option PyDate × Option PyDate

def rowKey (r : Row) : EventKey := (r.eventPk, r.ann, r.start)

def eventKey (e : NewEvent) : EventKey :=
  (e.event_pk, e.announcement_date, e.start_date)

/-- Lines 337-344: a stored row is an expected-earnings placeholder
when it is of earnings kind and its notes carry an `estimate` field
(any value, including null) or the `source` tag
`'earnings_calendar'`. -/
def isExpectedRow (r : Row) : Bool :=
  r.eventPk == 2 &&
    match r.notes with
    | none => false
    | some p =>
      (p.lookup "estimate").isSome
        || p.lookup "source" == some (.str "earnings_calendar")

/-- `_extract_qy` (lines 304-324): quarter/year hint from a notes
payload, derived from `start_date or announcement_date` when either
field is missing, then normalized (`str(q) if q else None`, and the
year to an int when possible). -/
def extractQy (notes : Option Payload) (start ann : Option PyDate) :
    Option String × Option Int :=
  let q0 := pyOr (pyGet notes "quarter") (pyGet notes "q")
  let y0 := pyOr (pyGet notes "year") (pyGet notes "y")
  let qy1 : Option JVal × Option JVal :=
    if q0 = none ∨ y0 = none then
      match start.orElse (fun _ => ann) with
      | some d => (some (.str (quarterOfMonth d.m)), some (.jint (d.y : Int)))
      | none => (q0, y0)
    else (q0, y0)
  let qn : Option String :=
    match qy1.1 with
    | some v => if pyTruthy v then some (pyStr v) else none
    | none => none
  let yn : Option Int :=
    match qy1.2 with
    | some (.jint n) => some n
    | some (.str s) => if s ≠ "" ∧ s.data.all Char.isDigit then some (s.toNat! : Int) else none
    | some _ => none
    | none => none
  (qn, yn)

/-- The `(quarter, year)` index key a stored placeholder is filed
under (lines 348-351): both components must exist and be truthy. -/
def rowQyIndexKey (r : Row) : Option (String × Int) :=
  match extractQy r.notes r.start r.ann with
  | (some s, some n) => if s ≠ "" ∧ n ≠ 0 then some (s, n) else none
  | _ => none

/-- `expected_by_qy[(q, y)]`: primary keys of the placeholders filed
under a `(quarter, year)` index key. -/
def expectedQyPks (rows : List Row) (k : String × Int) : List Nat :=
  (rows.filter (fun r => isExpectedRow r && rowQyIndexKey r == some k)).map
    (fun r => r.pk)

/-- `expected_by_start[d]`: primary keys of the placeholders with a
given start date. -/
def expectedStartPks (rows : List Row) (d : PyDate) : List Nat :=
  (rows.filter (fun r => isExpectedRow r && r.start == some d)).map
    (fun r => r.pk)

/-- Line 376/385: the incoming event is an actual earnings result. -/
def isNewActual (e : NewEvent) : Bool :=
  e.event_pk == 2 && e.details.isSome && pyGetIsNone e.details "estimate"

/-- The scan of `existing_set` for an exact identity-key match
(lines 368-372); the stored set is keyed uniquely, so scanning in row
order is faithful. -/
def findExisting (rows : List Row) (k : EventKey) : Option (Nat × Bool) :=
  (rows.find? (fun r => rowKey r == k)).map (fun r => (r.pk, isExpectedRow r))

/-- `sanitize_for_text` on a JSON scalar: the payloads the program
stores contain no `Decimal` or `datetime` values, on the rest the
function returns its argument. -/
def sanitizeJVal : JVal → JVal
  | .null => .null
  | .str s => .str s
  | .jint n => .jint n
  | .jnum q => .jnum q

def sanitizePayload (p : Payload) : Payload :=
  p.map (fun kv => (kv.1, sanitizeJVal kv.2))

/-- The `(quarter, year)` the deletion search uses for an incoming
actual event (lines 388-397): the details' fields when both are
truthy, else derived from `start_date`, else from
`announcement_date`; the index lookup succeeds only for a
(string, int) pair, matching Python tuple equality against the index
keys. -/
def newEventQyKey (e : NewEvent) : Option (String × Int) :=
  let q0 := pyGet e.details "quarter"
  let y0 := pyGet e.details "year"
  let truthyBoth :=
    (q0.map pyTruthy).getD false && (y0.map pyTruthy).getD false
  let qy : Option JVal × Option JVal :=
    if truthyBoth then (q0, y0)
    else
      match e.start_date with
      | some d => (some (.str (quarterOfMonth d.m)), some (.jint (d.y : Int)))
      | none =>
        match e.announcement_date with
        | some d => (some (.str (quarterOfMonth d.m)), some (.jint (d.y : Int)))
        | none => (q0, y0)
  match qy with
  | (some (.str s), some (.jint n)) =>
    if s != "" && n != 0 then some (s, n) else none
  | _ => none

/-- The reconciliation plan: payload updates `(pk, new payload)`,
placeholder deletions by pk, and the events kept for insertion. -/
structure Plan : Type where
  updates : List (Nat × Payload)
  deletes : List Nat
  newEvents : List NewEvent
deriving DecidableEq

/-- Contribution of one incoming event to the plan (the body of the
loop at lines 358-404). -/
def reconcileStep (rows : List Row) (e : NewEvent) :
    List (Nat × Payload) × List Nat × List NewEvent :=
  match findExisting rows (eventKey e) with
  | some (pk, isExp) =>
    if isExp && isNewActual e then
      match e.details with
      | some p => ([(pk, sanitizePayload p)], [], [])
      | none => ([], [], [])
    else ([], [], [])
  | none =>
    let dels :=
      if isNewActual e then
        (match newEventQyKey e with
         | some k => expectedQyPks rows k
         | none => []) ++
        (match e.start_date with
         | some d => expectedStartPks rows d
         | none => [])
      else []
    ([], dels, [e])

/-- The full loop, accumulating in event order. -/
def reconcile (rows : List Row) (events : List NewEvent) : Plan :=
  events.foldr (fun e acc =>
    let s := reconcileStep rows e
    { updates := s.1 ++ acc.updates
      deletes := s.2.1 ++ acc.deletes
      newEvents := s.2.2 ++ acc.newEvents })
    { updates := [], deletes := [], newEvents := [] }

/-- Executing the queued notes updates in order (line 414-415); a pk
that was deleted first is simply absent. -/
def applyRowUpdates (ups : List (Nat × Payload)) (r : Row) : Row :=
  ups.foldl (fun r u => if u.1 == r.pk then { r with notes := some u.2 } else r) r

/-- `COALESCE(MAX(...), 0) + 1` over the surviving rows (the SELECT
runs after the DELETE). -/
def nextPk (rows : List Row) : Nat :=
  (rows.map (fun r => r.pk)).foldl max 0 + 1

def nextId (rows : List Row) : Nat :=
  (rows.map (fun r => r.id)).foldl max 0 + 1

/-- The notes payload written by the bulk-insert path (lines 427-430):
sanitize, then drop the `source` key. -/
def insertedNotes (details : Option Payload) : Option Payload :=
  details.map (fun p => (sanitizePayload p).filter (fun kv => kv.1 ≠ "source"))

/-- Rows appended by the bulk COPY (lines 425-443), enumerated from a
base primary key and identifier. -/
def insertRowsGo (basePk baseId : Nat) : Nat → List NewEvent → List Row
  | _, [] => []
  | i, e :: rest =>
    { pk := basePk + i
      id := baseId + i
      eventPk := e.event_pk
      ann := e.announcement_date
      start := e.start_date
      notes := insertedNotes e.details } :: insertRowsGo basePk baseId (i + 1) rest

/-- Rows appended by the bulk COPY (lines 425-443). -/
def insertRowsFrom (base : List Row) (newEvents : List NewEvent) : List Row :=
  insertRowsGo (nextPk base) (nextId base) 0 newEvents

/-- The stored event set after `batch_insert_events`: delete, then
update, then bulk-insert. -/
def finalRows (rows : List Row) (events : List NewEvent) : List Row :=
  let plan := reconcile rows events
  let kept := rows.filter (fun r => !plan.deletes.contains r.pk)
  let updated := kept.map (applyRowUpdates plan.updates)
  updated ++ insertRowsFrom kept plan.newEvents

/-- The stored earnings events filed under one `(quarter, year)`. -/
def earningsForQuarter (rows : List Row) (k : String × Int) : List Row :=
  rows.filter (fun r => r.eventPk == 2 && rowQyIndexKey r == some k)

/-!
# Theorems
-/

/-! ## Round-half-even is a nearest-integer rounding -/

theorem roundHalfEven_near (q : Rat) : |(roundHalfEven q : Rat) - q| ≤ 1/2 := by
  have hf : ((⌊q⌋ : Int) : Rat) ≤ q := Int.floor_le q
  have hf2 : q < ((⌊q⌋ : Int) : Rat) + 1 := Int.lt_floor_add_one q
  simp only [roundHalfEven]
  split_ifs <;>
    (rw [abs_le]; constructor <;> (push_cast; linarith))

/-- C9 (confirmed).  Split-ratio formatting: factor 2 gives
"2-for-1", factor 0.5 gives "Reverse 2-for-1", factor 1, a missing
factor and an unparseable factor give `none`; every factor above 1
gives `N ++ "-for-1"` and every positive factor below 1 gives
`"Reverse " ++ N ++ "-for-1"` where `N` is an integer within 1/2 of
the (reciprocal) factor, i.e. the rounded value. -/
theorem claim9_split_ratio :
    compute_split_ratio_str (.value 2) = some "2-for-1" ∧
    compute_split_ratio_str (.value (1/2)) = some "Reverse 2-for-1" ∧
    compute_split_ratio_str (.value 1) = none ∧
    compute_split_ratio_str .missing = none ∧
    compute_split_ratio_str .unparseable = none ∧
    (∀ q : Rat, 1 < q →
      ∃ n : Int, compute_split_ratio_str (.value q) = some (toString n ++ "-for-1") ∧
        |(n : Rat) - q| ≤ 1/2) ∧
    (∀ q : Rat, 0 < q → q < 1 →
      ∃ n : Int,
        compute_split_ratio_str (.value q)
          = some ("Reverse " ++ toString n ++ "-for-1") ∧
        |(n : Rat) - 1/q| ≤ 1/2) := by
  refine ⟨?_, ?_, ?_, rfl, rfl, ?_, ?_⟩
  · norm_num [compute_split_ratio_str, roundHalfEven]; rfl
  · norm_num [compute_split_ratio_str, roundHalfEven]; rfl
  · norm_num [compute_split_ratio_str]
  · intro q hq
    refine ⟨roundHalfEven q, ?_, roundHalfEven_near q⟩
    have h1 : ¬ q = 1 := by intro h; rw [h] at hq; exact absurd hq (lt_irrefl 1)
    simp [compute_split_ratio_str, h1, hq]
  · intro q hq0 hq1
    refine ⟨roundHalfEven (1/q), ?_, roundHalfEven_near (1/q)⟩
    have h1 : ¬ q = 1 := by intro h; rw [h] at hq1; exact absurd hq1 (lt_irrefl 1)
    have h2 : ¬ (1 : Rat) < q := not_lt.mpr (le_of_lt hq1)
    have h3 : ¬ q = 0 := ne_of_gt hq0
    simp [compute_split_ratio_str, h1, h2, h3]

/-- Witness for C9: the general clauses at the concrete factors 3 and
1/3. -/
theorem claim9_split_ratio_witness :
    ((1 : Rat) < 3 ∧
      ∃ n : Int, compute_split_ratio_str (.value 3) = some (toString n ++ "-for-1") ∧
        |(n : Rat) - 3| ≤ 1/2) ∧
    ((0 : Rat) < 1/3 ∧ (1/3 : Rat) < 1 ∧
      ∃ n : Int,
        compute_split_ratio_str (.value (1/3))
          = some ("Reverse " ++ toString n ++ "-for-1") ∧
        |(n : Rat) - 1/(1/3)| ≤ 1/2) :=
  ⟨⟨by norm_num, claim9_split_ratio.2.2.2.2.2.1 3 (by norm_num)⟩,
   ⟨by norm_num, by norm_num,
    claim9_split_ratio.2.2.2.2.2.2 (1/3) (by norm_num) (by norm_num)⟩⟩

/-! ## C7: the pre-insertion event sort -/

instance : IsTotal NewEvent sortKeyLE :=
  ⟨by intro a b; unfold sortKeyLE; omega⟩

instance : IsTrans NewEvent sortKeyLE :=
  ⟨by intro a b c; unfold sortKeyLE; omega⟩

/-- C7 counterexample.  The claim says every event with no
announcement date sorts after all dated events, but an event dated
9999-12-31 shares the sort sentinel of undated events, and the tie is
broken by type priority: here the undated dividend event (kind 1)
sorts before the dated split event (kind 3). -/
theorem claim7_counterexample :
    sortEvents
        [{ event_pk := 3, announcement_date := some ⟨9999, 12, 31⟩,
           start_date := none, details := some [("split_ratio", JVal.str "2-for-1")] },
         { event_pk := 1, announcement_date := none,
           start_date := none, details := some [("dividend_amount", JVal.str "1")] }]
      = [{ event_pk := 1, announcement_date := none,
           start_date := none, details := some [("dividend_amount", JVal.str "1")] },
         { event_pk := 3, announcement_date := some ⟨9999, 12, 31⟩,
           start_date := none, details := some [("split_ratio", JVal.str "2-for-1")] }] := by
  decide

/-- C7 (corrected).  The pre-insertion sort is a stable sort by
`(announcement-date key, type priority)`: events with earlier
announcement dates sort strictly first; on equal dates an actual
earnings event (kind 2, truthy details, `estimate` gets `None`;
priority 2.1) sorts strictly before an expected earnings event
(kind 2 with an estimate value; priority 2.2), and other kinds sort by
their numeric kind code.  Amendment forced by the counterexample: an
event with no announcement date sorts after all events dated strictly
before 9999-12-31, but ties with events dated exactly 9999-12-31
(the sentinel), where type priority decides. -/
theorem claim7_sort_determinism_amended :
    (∀ e1 e2 : NewEvent, ∀ d1 d2 : PyDate,
      e1.announcement_date = some d1 → e2.announcement_date = some d2 →
      dateOrd d1 < dateOrd d2 → sortKeyLT e1 e2) ∧
    (∀ e1 e2 : NewEvent,
      e1.announcement_date = e2.announcement_date →
      e1.event_pk = 2 → e2.event_pk = 2 →
      e1.details.getD [] ≠ [] → pyGetIsNone e1.details "estimate" = true →
      pyGetIsNone e2.details "estimate" = false →
      sortKeyLT e1 e2) ∧
    (∀ e1 e2 : NewEvent,
      e1.announcement_date = e2.announcement_date →
      e1.event_pk ≠ 2 → e2.event_pk ≠ 2 → e1.event_pk < e2.event_pk →
      sortKeyLT e1 e2) ∧
    (∀ e1 e2 : NewEvent, ∀ d : PyDate,
      e1.announcement_date = some d → dateOrd d < 99991231 →
      e2.announcement_date = none → sortKeyLT e1 e2) ∧
    (∀ l, (sortEvents l).Sorted sortKeyLE ∧ List.Perm (sortEvents l) l) ∧
    (∀ a b, sortKeyLT a b → sortKeyLE a b ∧ ¬ sortKeyLE b a) := by
  refine ⟨?_, ?_, ?_, ?_, ?_, ?_⟩
  · intro e1 e2 d1 d2 h1 h2 hlt
    left
    simp [sortDateKey, h1, h2, hlt]
  · intro e1 e2 hann h1 h2 hne hest1 hest2
    right
    constructor
    · simp [sortDateKey, hann]
    · simp only [sortPrio, h1, h2, beq_self_eq_true, if_pos, hest1, hest2]
      cases hd : e1.details.getD [] with
      | nil => exact absurd hd hne
      | cons a l => simp [hd]
  · intro e1 e2 hann h1 h2 hlt
    right
    refine ⟨by simp [sortDateKey, hann], ?_⟩
    have b1 : (e1.event_pk == 2) = false := by simpa using h1
    have b2 : (e2.event_pk == 2) = false := by simpa using h2
    simp only [sortPrio, b1, b2, if_neg, Bool.false_eq_true, not_false_eq_true]
    omega
  · intro e1 e2 d h1 hd h2
    left
    simp [sortDateKey, h1, h2, hd]
  · intro l
    exact ⟨List.sorted_insertionSort sortKeyLE l, List.perm_insertionSort sortKeyLE l⟩
  · intro a b h
    unfold sortKeyLT at h
    unfold sortKeyLE
    omega

/-- Witness for C7: the strict orderings at concrete events — an
actual earnings event before an expected one sharing its date, and a
dated event before an undated one. -/
theorem claim7_sort_determinism_amended_witness :
    (sortKeyLT
      { event_pk := 2, announcement_date := some ⟨2024, 3, 31⟩,
        start_date := some ⟨2024, 4, 25⟩,
        details := some [("quarter", JVal.str "Q1")] }
      { event_pk := 2, announcement_date := some ⟨2024, 3, 31⟩,
        start_date := some ⟨2024, 4, 20⟩,
        details := some [("quarter", JVal.str "Q1"), ("estimate", JVal.str "1.5")] }) ∧
    (sortKeyLT
      { event_pk := 3, announcement_date := some ⟨2024, 3, 31⟩,
        start_date := none, details := some [] }
      { event_pk := 1, announcement_date := none,
        start_date := none, details := some [] }) :=
  ⟨claim7_sort_determinism_amended.2.1 _ _ rfl rfl rfl (by decide) (by decide) (by decide),
   claim7_sort_determinism_amended.2.2.2.1 _ _ ⟨2024, 3, 31⟩ rfl (by decide) rfl⟩

/-! ## C8: federal-funds-rate retention -/

/-- C8 counterexample.  The claim says retained entries are
deduplicated by date; but the code deduplicates by the whole
`(date, value)` pair, so two entries sharing date 5 with different
value strings are both retained. -/
theorem claim8_counterexample :
    (5, "5.5") ∈ retainRecentRates [(5, "5.5"), (5, "5.25")] ∧
    (5, "5.25") ∈ retainRecentRates [(5, "5.5"), (5, "5.25")] := by
  decide

/-- C8 (corrected).  The retained federal-funds list holds at most 12
entries, contains no duplicate entries, is ordered by date descending
(so it keeps most recent periods), and every retained entry comes from
the parsed series.  Amendment forced by the counterexample:
deduplication is by the whole `(date, value)` pair, not by date — two
retained entries may share a date when their value strings differ.
The series itself is fetched once per run, before the per-asset loop,
and the same retained list is appended to every asset's events. -/
theorem claim8_rate_retention_amended :
    ∀ parsed : List (IndDate × String),
      (retainRecentRates parsed).length ≤ 12 ∧
      (retainRecentRates parsed).Nodup ∧
      (retainRecentRates parsed).Pairwise (fun a b => b.1 ≤ a.1) ∧
      ∀ x ∈ retainRecentRates parsed, x ∈ parsed := by
  intro parsed
  haveI htot : IsTotal (IndDate × String) (fun a b => b.1 ≤ a.1) :=
    ⟨fun a b => le_total b.1 a.1⟩
  haveI htr : IsTrans (IndDate × String) (fun a b => b.1 ≤ a.1) :=
    ⟨fun _ _ _ h1 h2 => le_trans h2 h1⟩
  have hperm := List.perm_insertionSort
    (fun a b : IndDate × String => b.1 ≤ a.1) parsed.dedup
  refine ⟨List.length_take_le _ _, ?_, ?_, ?_⟩
  · exact ((hperm.nodup_iff.mpr parsed.nodup_dedup).sublist
      (List.take_sublist _ _))
  · exact (List.sorted_insertionSort
      (fun a b : IndDate × String => b.1 ≤ a.1) parsed.dedup).sublist
      (List.take_sublist _ _)
  · intro x hx
    have hx2 := (List.take_sublist _ _).mem hx
    exact List.mem_dedup.mp (hperm.mem_iff.mp hx2)

/-- Witness for C8: the retention properties evaluated at a concrete
parsed series. -/
theorem claim8_rate_retention_amended_witness :
    (retainRecentRates [(3, "4.0"), (7, "5.5"), (5, "5.0")]).length ≤ 12 ∧
    (retainRecentRates [(3, "4.0"), (7, "5.5"), (5, "5.0")]).Nodup ∧
    (retainRecentRates [(3, "4.0"), (7, "5.5"), (5, "5.0")]).Pairwise
      (fun a b => b.1 ≤ a.1) ∧
    ∀ x ∈ retainRecentRates [(3, "4.0"), (7, "5.5"), (5, "5.0")],
      x ∈ [(3, "4.0"), (7, "5.5"), (5, "5.0")] :=
  claim8_rate_retention_amended [(3, "4.0"), (7, "5.5"), (5, "5.0")]

/-! ## C5: the gap filler -/

theorem specGo_isSome (last : Rat) (rs : List IndRecord) :
    ∀ r ∈ specGo last rs, r.2.isSome := by
  induction rs generalizing last with
  | nil => intro r hr; cases hr
  | cons head rest ih =>
    obtain ⟨d, x⟩ := head
    cases x with
    | some v =>
      intro r hr
      rcases List.mem_cons.mp hr with rfl | hr
      · simp
      · exact ih v r hr
    | none =>
      intro r hr
      rcases List.mem_cons.mp hr with rfl | hr
      · simp
      · exact ih last r hr

theorem fbfGo_mem (last : Rat) (rs : List IndRecord) :
    ∀ u ∈ fbfGo last rs, (u.2, (none : Option Rat)) ∈ rs := by
  induction rs generalizing last with
  | nil => intro u hu; cases hu
  | cons head rest ih =>
    obtain ⟨d, x⟩ := head
    cases x with
    | some v =>
      intro u hu
      exact List.mem_cons_of_mem _ (ih v u hu)
    | none =>
      intro u hu
      rcases List.mem_cons.mp hu with rfl | hu
      · exact List.mem_cons_self _ _
      · exact List.mem_cons_of_mem _ (ih last u hu)

theorem fillCell_some (ups : List (Rat × IndDate)) (d : IndDate) (v : Rat) :
    fillCell ups (d, some v) = (d, some v) := rfl

theorem fbf_map_eq (last : Rat) (rs : List IndRecord)
    (h : (rs.map Prod.fst).Nodup) :
    rs.map (fillCell (fbfGo last rs)) = specGo last rs := by
  induction rs generalizing last with
  | nil => rfl
  | cons head rest ih =>
    obtain ⟨d, x⟩ := head
    rw [List.map_cons] at h
    have hd : d ∉ rest.map Prod.fst := (List.nodup_cons.mp h).1
    have hrest : (rest.map Prod.fst).Nodup := (List.nodup_cons.mp h).2
    cases x with
    | some v =>
      show fillCell (fbfGo v rest) (d, some v)
          :: rest.map (fillCell (fbfGo v rest)) = _
      rw [fillCell_some, ih v hrest]
      rfl
    | none =>
      show fillCell ((last, d) :: fbfGo last rest) (d, none)
          :: rest.map (fillCell ((last, d) :: fbfGo last rest)) = _
      have hhead : fillCell ((last, d) :: fbfGo last rest) (d, none)
          = (d, some last) := by
        simp [fillCell, List.find?]
      have htail : rest.map (fillCell ((last, d) :: fbfGo last rest))
          = rest.map (fillCell (fbfGo last rest)) := by
        refine List.map_congr_left ?_
        intro r hr
        obtain ⟨d2, x2⟩ := r
        cases x2 with
        | some v2 => rfl
        | none =>
          have hne : d ≠ d2 := by
            intro hcontra
            exact hd (by simpa [hcontra] using List.mem_map_of_mem Prod.fst hr)
          have hb : (d == d2) = false := by simpa using hne
          simp [fillCell, List.find?, hb]
      rw [hhead, htail, ih last hrest]
      rfl

theorem firstValid_none_all (records : List IndRecord)
    (h : firstValid records = none) :
    ∀ r ∈ records, r.2 = none := by
  intro r hr
  exact List.findSome?_eq_none_iff.mp h r hr

theorem fillCell_nil_id (records : List IndRecord)
    (hall : ∀ r ∈ records, r.2 = none) :
    records.map (fillCell []) = records := by
  refine (List.map_congr_left ?_).trans (List.map_id records)
  intro r hr
  have h2 := hall r hr
  obtain ⟨d2, x2⟩ := r
  simp only at h2
  subst h2
  simp [fillCell, List.find?, id]

/-- C5 (confirmed).  Gap-fill completeness: applying the generated
update list through the SQL semantics (each update sets only a
still-null cell at its date) reproduces the spec-side fill exactly —
every null cell receives the last known value before it, seeded with
the first non-null value, so cells before the first non-null value get
that value; when the column has at least one non-null value no null
cell remains anywhere in the dated range; updates are generated only
for originally-null cells; and a column with no value at all (or no
rows) is left unchanged. -/
theorem claim5_gap_fill :
    ∀ records : List IndRecord, (records.map Prod.fst).Nodup →
      applyFbf records = specFill records ∧
      ((∃ r ∈ records, r.2.isSome) → ∀ r ∈ applyFbf records, r.2.isSome) ∧
      (∀ u ∈ fbfUpdates records, (u.2, (none : Option Rat)) ∈ records) ∧
      (firstValid records = none →
        fbfUpdates records = [] ∧ applyFbf records = records) := by
  intro records hnd
  have hmain : applyFbf records = specFill records := by
    cases hrec : records with
    | nil => rfl
    | cons head rest =>
      cases hfv : firstValid (head :: rest) with
      | none =>
        have hall := firstValid_none_all (head :: rest) hfv
        have hupd : fbfUpdates (head :: rest) = [] := by
          simp [fbfUpdates, hfv]
        unfold applyFbf specFill
        rw [hupd, hfv]
        exact fillCell_nil_id (head :: rest) hall
      | some fv =>
        have hupd : fbfUpdates (head :: rest) = fbfGo fv (head :: rest) := by
          simp [fbfUpdates, hfv]
        unfold applyFbf specFill
        rw [hupd, hfv]
        rw [hrec] at hnd
        exact fbf_map_eq fv (head :: rest) hnd
  refine ⟨hmain, ?_, ?_, ?_⟩
  · intro hex r hr
    rw [hmain] at hr
    cases hfv : firstValid records with
    | none =>
      obtain ⟨r0, hr0, hr0s⟩ := hex
      have := firstValid_none_all records hfv r0 hr0
      rw [this] at hr0s
      cases hr0s
    | some fv =>
      have hfill : specFill records = specGo fv records := by
        unfold specFill
        rw [hfv]
      rw [hfill] at hr
      exact specGo_isSome fv records r hr
  · intro u hu
    cases hrec : records with
    | nil => rw [hrec] at hu; cases hu
    | cons head rest =>
      rw [hrec] at hu
      cases hfv : firstValid (head :: rest) with
      | none => simp [fbfUpdates, hfv] at hu
      | some fv =>
        have hupd : fbfUpdates (head :: rest) = fbfGo fv (head :: rest) := by
          simp [fbfUpdates, hfv]
        rw [hupd] at hu
        exact fbfGo_mem fv (head :: rest) u hu
  · intro hfv
    have hupd : fbfUpdates records = [] := by
      cases hrec : records with
      | nil => rfl
      | cons head rest =>
        rw [hrec] at hfv
        simp [fbfUpdates, hfv]
    refine ⟨hupd, ?_⟩
    unfold applyFbf
    rw [hupd]
    exact fillCell_nil_id records (firstValid_none_all records hfv)

/-- Witness for C5: the claim evaluated at a concrete column with a
leading null, a gap and a trailing null. -/
theorem claim5_gap_fill_witness :
    (([(1, none), (2, some 5), (3, none)] : List IndRecord).map Prod.fst).Nodup ∧
    applyFbf [(1, none), (2, some 5), (3, none)]
      = specFill [(1, none), (2, some 5), (3, none)] ∧
    ((∃ r ∈ ([(1, none), (2, some 5), (3, none)] : List IndRecord), r.2.isSome) →
      ∀ r ∈ applyFbf [(1, none), (2, some 5), (3, none)], r.2.isSome) :=
  ⟨by decide,
   (claim5_gap_fill [(1, none), (2, some 5), (3, none)] (by decide)).1,
   (claim5_gap_fill [(1, none), (2, some 5), (3, none)] (by decide)).2.1⟩

/-! ## C3: watermark monotonicity of indicator ingestion -/

theorem upsert_keys (dd : List (IndDate × Rat)) (d : IndDate) (q : Rat) :
    ∀ p ∈ upsert dd d q, p.1 = d ∨ p.1 ∈ dd.map Prod.fst := by
  intro p hp
  unfold upsert at hp
  by_cases hc : dd.any (fun p => p.1 == d)
  · rw [if_pos hc] at hp
    obtain ⟨p0, hp0, hpe⟩ := List.mem_map.mp hp
    by_cases he : p0.1 = d
    · left
      rw [if_pos (by simpa using he)] at hpe
      rw [← hpe]
    · right
      rw [if_neg (by simpa using he)] at hpe
      rw [← hpe]
      exact List.mem_map_of_mem Prod.fst hp0
  · rw [if_neg hc] at hp
    rcases List.mem_append.mp hp with hp | hp
    · right
      exact List.mem_map_of_mem Prod.fst hp
    · left
      rcases List.mem_singleton.mp hp with rfl
      rfl

/-- The shifted date of one raw entry. -/
def shiftedDate (col : String) (e : IndEntry) : IndDate :=
  if col == "WEFFRP_value" then e.date - 5 else e.date

theorem ddStep_keys (col : String) (prev : IndDate)
    (dd : List (IndDate × Rat)) (e : IndEntry) :
    ∀ p ∈ ddStep col prev dd e, p.1 ∈ dd.map Prod.fst ∨
      (p.1 = shiftedDate col e ∧ (col = "WEFFRP_value" → p.1 ≠ prev)) := by
  intro p hp
  unfold ddStep at hp
  by_cases hg : (col == "WEFFRP_value" && (shiftedDate col e == prev)) = true
  · rw [shiftedDate] at hg
    rw [if_pos hg] at hp
    exact Or.inl (List.mem_map_of_mem Prod.fst hp)
  · rw [shiftedDate] at hg
    rw [if_neg hg] at hp
    cases hcv : convVal col e.val with
    | none =>
      rw [hcv] at hp
      exact Or.inl (List.mem_map_of_mem Prod.fst hp)
    | some q =>
      rw [hcv] at hp
      rcases upsert_keys _ _ _ p hp with hpe | hpm
      · refine Or.inr ⟨by rw [hpe]; rfl, ?_⟩
        intro hw hcontra
        subst hw
        simp at hg hpe
        exact hg (by rw [← hpe]; exact hcontra)
      · exact Or.inl hpm

theorem buildDateData_keys (col : String) (prev : IndDate)
    (nd : List IndEntry) :
    ∀ p ∈ buildDateData col prev nd,
      ∃ e ∈ nd, p.1 = shiftedDate col e ∧ (col = "WEFFRP_value" → p.1 ≠ prev) := by
  have haux : ∀ (l : List IndEntry) (acc : List (IndDate × Rat)),
      ∀ p ∈ l.foldl (ddStep col prev) acc,
        p.1 ∈ acc.map Prod.fst ∨
          ∃ e ∈ l, p.1 = shiftedDate col e ∧ (col = "WEFFRP_value" → p.1 ≠ prev) := by
    intro l
    induction l with
    | nil => intro acc p hp; exact Or.inl (List.mem_map_of_mem Prod.fst hp)
    | cons e rest ih =>
      intro acc p hp
      rcases ih (ddStep col prev acc e) p hp with hin | ⟨e0, he0, hprop⟩
      · obtain ⟨p0, hp0, hpe⟩ := List.mem_map.mp hin
        rcases ddStep_keys col prev acc e p0 hp0 with hm | hprop
        · left
          rw [← hpe]
          exact hm
        · right
          exact ⟨e, List.mem_cons_self _ _, by rw [← hpe]; exact hprop⟩
      · exact Or.inr ⟨e0, List.mem_cons_of_mem _ he0, hprop⟩
  intro p hp
  rcases haux nd [] p hp with hin | h
  · cases hin
  · exact h

theorem mem_newData (prev : IndDate) (entries : List IndEntry) :
    ∀ e ∈ newData prev entries, e ∈ entries ∧ prev < e.date := by
  intro e he
  unfold newData at he
  have := List.mem_reverse.mp he
  have h2 := List.mem_filter.mp this
  exact ⟨h2.1, by simpa using h2.2⟩

theorem ingestPlan_dates (col : String) (s : IndState)
    (entries : List IndEntry) :
    ∀ d ∈ ((ingestPlan col s entries).updates.map Prod.snd
        ++ (ingestPlan col s entries).inserts.map Prod.fst),
      ∃ e ∈ entries, watermark s < e.date ∧ d = shiftedDate col e ∧
        (col = "WEFFRP_value" → d ≠ watermark s) := by
  intro d hd
  have hdd : ∃ p ∈ buildDateData col (watermark s)
      (newData (watermark s) entries), p.1 = d := by
    rcases List.mem_append.mp hd with hu | hi
    · obtain ⟨u, hu2, hue⟩ := List.mem_map.mp hu
      unfold ingestPlan at hu2
      simp only at hu2
      obtain ⟨p, hp, hpe⟩ := List.mem_map.mp hu2
      refine ⟨p, List.mem_of_mem_filter hp, ?_⟩
      rw [← hue, ← hpe]
    · obtain ⟨i, hi2, hie⟩ := List.mem_map.mp hi
      unfold ingestPlan at hi2
      simp only at hi2
      exact ⟨i, List.mem_of_mem_filter hi2, hie⟩
  obtain ⟨p, hp, hpe⟩ := hdd
  obtain ⟨e, he, hse, hgd⟩ := buildDateData_keys col (watermark s) _ p hp
  obtain ⟨hee, hlt⟩ := mem_newData (watermark s) entries e he
  exact ⟨e, hee, hlt, by rw [← hpe]; exact hse, by rw [← hpe]; exact hgd⟩

/-- C3 counterexample.  With the weekly federal-funds column, a stored
watermark of 730130 and one upstream entry dated 730132 (two days
later), the 5-day back-shift stores date 730127 — three days before
the watermark — refuting "no entry whose shifted date is at or before
the watermark is stored". -/
theorem claim3_counterexample :
    (730127, (5 : Rat)) ∈ (ingestPlan "WEFFRP_value" [(730130, some 1)]
      [⟨730132, RawVal.num 5⟩]).inserts ∧
    (730127 : IndDate) ≤ watermark [(730130, some 1)] := by
  constructor
  · decide
  · decide

/-- C3 (corrected).  For every column other than the weekly federal
funds rate, ingestion only stores (updates or inserts) dates strictly
after the watermark.  Amendment forced by the counterexample: for the
weekly federal funds rate column, the stored shifted date is strictly
after `watermark - 5` and never equal to the watermark (entries
landing exactly on the watermark after the shift are dropped), but it
can fall strictly before the watermark. -/
theorem claim3_watermark_monotonicity_amended :
    ∀ (col : String) (s : IndState) (entries : List IndEntry),
      (col ≠ "WEFFRP_value" →
        (∀ u ∈ (ingestPlan col s entries).updates, watermark s < u.2) ∧
        (∀ i ∈ (ingestPlan col s entries).inserts, watermark s < i.1)) ∧
      (col = "WEFFRP_value" →
        (∀ u ∈ (ingestPlan col s entries).updates,
          watermark s - 5 < u.2 ∧ u.2 ≠ watermark s) ∧
        (∀ i ∈ (ingestPlan col s entries).inserts,
          watermark s - 5 < i.1 ∧ i.1 ≠ watermark s)) := by
  intro col s entries
  constructor
  · intro hne
    have hcb : (col == "WEFFRP_value") = false := by simpa using hne
    constructor
    · intro u hu
      obtain ⟨e, _, hlt, hshift, _⟩ := ingestPlan_dates col s entries u.2
        (List.mem_append.mpr (Or.inl (List.mem_map_of_mem Prod.snd hu)))
      rw [hshift]
      unfold shiftedDate
      rw [hcb]
      exact hlt
    · intro i hi
      obtain ⟨e, _, hlt, hshift, _⟩ := ingestPlan_dates col s entries i.1
        (List.mem_append.mpr (Or.inr (List.mem_map_of_mem Prod.fst hi)))
      rw [hshift]
      unfold shiftedDate
      rw [hcb]
      exact hlt
  · intro heq
    have hcb : (col == "WEFFRP_value") = true := by simpa using heq
    constructor
    · intro u hu
      obtain ⟨e, _, hlt, hshift, hne⟩ := ingestPlan_dates col s entries u.2
        (List.mem_append.mpr (Or.inl (List.mem_map_of_mem Prod.snd hu)))
      refine ⟨?_, hne heq⟩
      rw [hshift]
      unfold shiftedDate
      rw [hcb]
      exact sub_lt_sub_right hlt 5
    · intro i hi
      obtain ⟨e, _, hlt, hshift, hne⟩ := ingestPlan_dates col s entries i.1
        (List.mem_append.mpr (Or.inr (List.mem_map_of_mem Prod.fst hi)))
      refine ⟨?_, hne heq⟩
      rw [hshift]
      unfold shiftedDate
      rw [hcb]
      exact sub_lt_sub_right hlt 5

/-- Witness for C3: the non-weekly clause at a concrete monthly
column, state and entry list. -/
theorem claim3_watermark_monotonicity_amended_witness :
    ("MEFFRP_value" ≠ "WEFFRP_value") ∧
    ((∀ u ∈ (ingestPlan "MEFFRP_value" [(730130, some 1)]
        [⟨730132, RawVal.num 5⟩]).updates,
      watermark [(730130, some 1)] < u.2) ∧
     (∀ i ∈ (ingestPlan "MEFFRP_value" [(730130, some 1)]
        [⟨730132, RawVal.num 5⟩]).inserts,
      watermark [(730130, some 1)] < i.1)) :=
  ⟨by decide,
   (claim3_watermark_monotonicity_amended "MEFFRP_value" [(730130, some 1)]
     [⟨730132, RawVal.num 5⟩]).1 (by decide)⟩

/-! ## C4: idempotence of indicator ingestion -/

theorem init_le_foldl_max (x : Int) (xs : List Int) : x ≤ xs.foldl max x := by
  induction xs generalizing x with
  | nil => exact le_refl x
  | cons y ys ih => exact le_trans (le_max_left x y) (ih (max x y))

theorem mem_le_foldl_max (x a : Int) (xs : List Int) (h : a ∈ xs) :
    a ≤ xs.foldl max x := by
  induction xs generalizing x with
  | nil => cases h
  | cons y ys ih =>
    rcases List.mem_cons.mp h with rfl | h2
    · exact le_trans (le_max_right x a) (init_le_foldl_max (max x a) ys)
    · exact ih (max x y) h2

theorem foldl_max_mem (x : Int) (xs : List Int) :
    xs.foldl max x = x ∨ xs.foldl max x ∈ xs := by
  induction xs generalizing x with
  | nil => exact Or.inl rfl
  | cons y ys ih =>
    rcases ih (max x y) with h | h
    · rcases max_choice x y with h2 | h2
      · exact Or.inl (by rw [List.foldl_cons, h, h2])
      · exact Or.inr (by rw [List.foldl_cons, h, h2]; exact List.mem_cons_self _ _)
    · exact Or.inr (List.mem_cons_of_mem _ h)

theorem mem_nonNullDates (s : IndState) (d : IndDate) :
    d ∈ nonNullDates s ↔ ∃ q : Rat, (d, some q) ∈ s := by
  unfold nonNullDates
  constructor
  · intro h
    obtain ⟨r, hr, he⟩ := List.mem_filterMap.mp h
    obtain ⟨d0, x0⟩ := r
    cases x0 with
    | none => simp at he
    | some q =>
      simp at he
      exact ⟨q, by rw [he] at hr; exact hr⟩
  · intro ⟨q, h⟩
    exact List.mem_filterMap.mpr ⟨(d, some q), h, by simp⟩

theorem le_watermark_of_mem (s : IndState) (d : IndDate)
    (h : d ∈ nonNullDates s) : d ≤ watermark s := by
  unfold watermark
  cases hn : nonNullDates s with
  | nil => rw [hn] at h; cases h
  | cons x xs =>
    rw [hn] at h
    rcases List.mem_cons.mp h with rfl | h2
    · exact init_le_foldl_max d xs
    · exact mem_le_foldl_max x d xs h2

theorem watermark_mem_of_ne (s : IndState) (h : nonNullDates s ≠ []) :
    watermark s ∈ nonNullDates s := by
  unfold watermark
  cases hn : nonNullDates s with
  | nil => exact absurd hn h
  | cons x xs =>
    show List.foldl max x xs ∈ x :: xs
    rcases foldl_max_mem x xs with h2 | h2
    · rw [h2]; exact List.mem_cons_self _ _
    · exact List.mem_cons_of_mem _ h2

theorem applyOneUpdate_fst (s : IndState) (u : Rat × IndDate) :
    (applyOneUpdate s u).map Prod.fst = s.map Prod.fst := by
  unfold applyOneUpdate
  rw [List.map_map]
  refine List.map_congr_left ?_
  intro r _
  simp only [Function.comp_apply]
  by_cases h : (r.1 == u.2) = true
  · rw [if_pos h]
  · rw [if_neg h]

theorem nonNull_applyOneUpdate_mono (s : IndState) (u : Rat × IndDate)
    (d : IndDate) (h : d ∈ nonNullDates s) :
    d ∈ nonNullDates (applyOneUpdate s u) := by
  obtain ⟨q, hq⟩ := (mem_nonNullDates s d).mp h
  by_cases hc : (d == u.2) = true
  · refine (mem_nonNullDates _ d).mpr ⟨u.1, ?_⟩
    have := List.mem_map_of_mem
      (fun r : IndDate × Option Rat => if r.1 == u.2 then (r.1, some u.1) else r) hq
    simpa [applyOneUpdate, hc] using this
  · refine (mem_nonNullDates _ d).mpr ⟨q, ?_⟩
    have := List.mem_map_of_mem
      (fun r : IndDate × Option Rat => if r.1 == u.2 then (r.1, some u.1) else r) hq
    simpa [applyOneUpdate, hc] using this

theorem nonNull_applyIndUpdates_mono (ups : List (Rat × IndDate))
    (s : IndState) (d : IndDate) (h : d ∈ nonNullDates s) :
    d ∈ nonNullDates (applyIndUpdates s ups) := by
  induction ups generalizing s with
  | nil => exact h
  | cons u rest ih => exact ih (applyOneUpdate s u) (nonNull_applyOneUpdate_mono s u d h)

theorem nonNull_of_update (ups : List (Rat × IndDate)) (s : IndState)
    (v : Rat) (d : IndDate) (hu : (v, d) ∈ ups) (hd : d ∈ s.map Prod.fst) :
    d ∈ nonNullDates (applyIndUpdates s ups) := by
  induction ups generalizing s with
  | nil => cases hu
  | cons u rest ih =>
    rcases List.mem_cons.mp hu with rfl | hu2
    · refine nonNull_applyIndUpdates_mono rest (applyOneUpdate s (v, d)) d ?_
      obtain ⟨r, hr, hre⟩ := List.mem_map.mp hd
      refine (mem_nonNullDates _ d).mpr ⟨v, ?_⟩
      have := List.mem_map_of_mem
        (fun r : IndDate × Option Rat => if r.1 == (v, d).2 then (r.1, some (v, d).1) else r) hr
      have hc : (r.1 == (v, d).2) = true := by simpa using hre
      simpa [applyOneUpdate, hc, hre] using this
    · exact ih (applyOneUpdate s u) hu2 (by rw [applyOneUpdate_fst]; exact hd)

theorem nonNull_applyOneUpdate_sub (s : IndState) (u : Rat × IndDate)
    (d : IndDate) (h : d ∈ nonNullDates (applyOneUpdate s u)) :
    d ∈ nonNullDates s ∨ u.2 = d := by
  obtain ⟨q, hq⟩ := (mem_nonNullDates _ d).mp h
  unfold applyOneUpdate at hq
  obtain ⟨r, hr, hre⟩ := List.mem_map.mp hq
  by_cases hc : (r.1 == u.2) = true
  · rw [if_pos hc] at hre
    right
    have h1 : r.1 = d := by
      have := congrArg Prod.fst hre
      simpa using this
    rw [← h1]
    exact (beq_iff_eq.mp hc).symm ▸ rfl
  · rw [if_neg hc] at hre
    left
    exact (mem_nonNullDates s d).mpr ⟨q, by rw [hre] at hr; exact hr⟩

theorem nonNull_applyIndUpdates_sub (ups : List (Rat × IndDate))
    (s : IndState) (d : IndDate)
    (h : d ∈ nonNullDates (applyIndUpdates s ups)) :
    d ∈ nonNullDates s ∨ ∃ u ∈ ups, u.2 = d := by
  induction ups generalizing s with
  | nil => exact Or.inl h
  | cons u rest ih =>
    rcases ih (applyOneUpdate s u) h with h2 | ⟨u0, hu0, hue⟩
    · rcases nonNull_applyOneUpdate_sub s u d h2 with h3 | h3
      · exact Or.inl h3
      · exact Or.inr ⟨u, List.mem_cons_self _ _, h3⟩
    · exact Or.inr ⟨u0, List.mem_cons_of_mem _ hu0, hue⟩

theorem upsert_key_mem (dd : List (IndDate × Rat)) (d : IndDate) (q : Rat) :
    d ∈ (upsert dd d q).map Prod.fst := by
  unfold upsert
  by_cases hc : dd.any (fun p => p.1 == d)
  · rw [if_pos hc]
    obtain ⟨p, hp, hpe⟩ := List.any_eq_true.mp hc
    apply List.mem_map.mpr
    refine ⟨(d, q), ?_, rfl⟩
    apply List.mem_map.mpr
    refine ⟨p, hp, ?_⟩
    show (if (p.1 == d) = true then (d, q) else p) = (d, q)
    rw [if_pos hpe]
  · rw [if_neg hc]
    rw [List.map_append]
    exact List.mem_append.mpr (Or.inr (by simp))

theorem upsert_keys_mono (dd : List (IndDate × Rat)) (d0 : IndDate) (q : Rat)
    (d : IndDate) (h : d ∈ dd.map Prod.fst) :
    d ∈ (upsert dd d0 q).map Prod.fst := by
  unfold upsert
  by_cases hc : dd.any (fun p => p.1 == d0)
  · rw [if_pos hc]
    rw [List.map_map]
    have : dd.map (Prod.fst ∘ fun p : IndDate × Rat => if p.1 == d0 then (d0, q) else p)
        = dd.map Prod.fst := by
      refine List.map_congr_left ?_
      intro p _
      by_cases hp : (p.1 == d0) = true
      · have hp2 : p.1 = d0 := beq_iff_eq.mp hp
        simp [hp2]
      · have hp2 : p.1 ≠ d0 := by simpa using hp
        simp [hp2]
    rw [this]
    exact h
  · rw [if_neg hc, List.map_append]
    exact List.mem_append.mpr (Or.inl h)

theorem ddStep_keys_mono (col : String) (prev : IndDate)
    (dd : List (IndDate × Rat)) (e : IndEntry) (d : IndDate)
    (h : d ∈ dd.map Prod.fst) :
    d ∈ (ddStep col prev dd e).map Prod.fst := by
  unfold ddStep
  by_cases hg : (col == "WEFFRP_value"
      && ((if col == "WEFFRP_value" then e.date - 5 else e.date) == prev)) = true
  · rw [if_pos hg]; exact h
  · rw [if_neg hg]
    cases hcv : convVal col e.val with
    | none => exact h
    | some q => exact upsert_keys_mono dd _ q d h

theorem ddStep_key_add (col : String) (prev : IndDate)
    (dd : List (IndDate × Rat)) (e : IndEntry) (q : Rat)
    (hcv : convVal col e.val = some q)
    (hcolb : (col == "WEFFRP_value") = false) :
    e.date ∈ (ddStep col prev dd e).map Prod.fst := by
  unfold ddStep
  rw [hcolb]
  simp only [Bool.false_and, Bool.false_eq_true, if_false, if_neg]
  rw [hcv]
  exact upsert_key_mem dd e.date q

theorem foldl_keys_mono (col : String) (prev : IndDate) (nd : List IndEntry)
    (acc : List (IndDate × Rat)) (d : IndDate) (h : d ∈ acc.map Prod.fst) :
    d ∈ (nd.foldl (ddStep col prev) acc).map Prod.fst := by
  induction nd generalizing acc with
  | nil => exact h
  | cons e rest ih => exact ih (ddStep col prev acc e) (ddStep_keys_mono col prev acc e d h)

theorem buildDateData_key_of_valid (col : String) (prev : IndDate)
    (nd : List IndEntry) (e : IndEntry) (q : Rat) (he : e ∈ nd)
    (hcv : convVal col e.val = some q)
    (hcolb : (col == "WEFFRP_value") = false) :
    e.date ∈ (buildDateData col prev nd).map Prod.fst := by
  unfold buildDateData
  have haux : ∀ (l : List IndEntry) (acc : List (IndDate × Rat)), e ∈ l →
      e.date ∈ (l.foldl (ddStep col prev) acc).map Prod.fst := by
    intro l
    induction l with
    | nil => intro acc h; cases h
    | cons a rest ih =>
      intro acc h
      rcases List.mem_cons.mp h with rfl | h2
      · exact foldl_keys_mono col prev rest _ e.date
          (ddStep_key_add col prev acc e q hcv hcolb)
      · exact ih (ddStep col prev acc a) h2
  exact haux nd [] he

theorem mem_newData_of (prev : IndDate) (entries : List IndEntry)
    (e : IndEntry) (he : e ∈ entries) (hlt : prev < e.date) :
    e ∈ newData prev entries := by
  unfold newData
  exact List.mem_reverse.mpr (List.mem_filter.mpr ⟨he, by simpa using hlt⟩)

theorem nonNull_inserts_of (inserts : List (IndDate × Rat)) (p : IndDate × Rat)
    (hp : p ∈ inserts) :
    p.1 ∈ nonNullDates (inserts.map (fun p => (p.1, some p.2))) := by
  refine (mem_nonNullDates _ p.1).mpr ⟨p.2, ?_⟩
  exact List.mem_map.mpr ⟨p, hp, rfl⟩

theorem ingest_nonNull_of_valid (col : String) (s : IndState)
    (entries : List IndEntry) (e : IndEntry) (q : Rat)
    (hcolb : (col == "WEFFRP_value") = false)
    (he : e ∈ entries) (hlt : watermark s < e.date)
    (hcv : convVal col e.val = some q) :
    e.date ∈ nonNullDates (ingestState col s entries) := by
  have hnd : e ∈ newData (watermark s) entries := mem_newData_of _ entries e he hlt
  have hkey : e.date ∈ (buildDateData col (watermark s)
      (newData (watermark s) entries)).map Prod.fst :=
    buildDateData_key_of_valid col _ _ e q hnd hcv hcolb
  obtain ⟨p, hp, hpe⟩ := List.mem_map.mp hkey
  unfold ingestState
  rw [nonNullDates, List.filterMap_append, ← nonNullDates, ← nonNullDates]
  by_cases hd : hasDate s p.1
  · refine List.mem_append.mpr (Or.inl ?_)
    have hup : (p.2, p.1) ∈ (ingestPlan col s entries).updates := by
      unfold ingestPlan
      simp only
      exact List.mem_map.mpr ⟨p, List.mem_filter.mpr ⟨hp, by simpa using hd⟩, rfl⟩
    have hfst : p.1 ∈ s.map Prod.fst := by
      obtain ⟨r, hr, hre⟩ := List.any_eq_true.mp hd
      exact List.mem_map.mpr ⟨r, hr, beq_iff_eq.mp hre⟩
    rw [← hpe]
    exact nonNull_of_update _ s p.2 p.1 hup hfst
  · refine List.mem_append.mpr (Or.inr ?_)
    have hin : p ∈ (ingestPlan col s entries).inserts := by
      unfold ingestPlan
      simp only
      exact List.mem_filter.mpr ⟨hp, by simpa using hd⟩
    rw [← hpe]
    exact nonNull_inserts_of _ p hin

theorem watermark_le_ingest (col : String) (s : IndState)
    (entries : List IndEntry) (hcolb : (col == "WEFFRP_value") = false) :
    watermark s ≤ watermark (ingestState col s entries) := by
  by_cases hn : nonNullDates s = []
  · by_cases hn2 : nonNullDates (ingestState col s entries) = []
    · unfold watermark
      rw [hn, hn2]
    · have hw2 := watermark_mem_of_ne _ hn2
      set s2 := ingestState col s entries with hs2
      have hsplit : watermark s2 ∈
          nonNullDates (applyIndUpdates s (ingestPlan col s entries).updates) ∨
          watermark s2 ∈ nonNullDates
            ((ingestPlan col s entries).inserts.map (fun p => (p.1, some p.2))) := by
        rw [hs2] at hw2
        unfold ingestState at hw2
        rw [nonNullDates, List.filterMap_append, ← nonNullDates, ← nonNullDates] at hw2
        exact List.mem_append.mp hw2
      have hplan : watermark s2 ∈ ((ingestPlan col s entries).updates.map Prod.snd
          ++ (ingestPlan col s entries).inserts.map Prod.fst) := by
        rcases hsplit with h | h
        · rcases nonNull_applyIndUpdates_sub _ s _ h with h2 | ⟨u, hu, hue⟩
          · rw [hn] at h2; cases h2
          · exact List.mem_append.mpr (Or.inl (List.mem_map.mpr ⟨u, hu, hue⟩))
        · obtain ⟨q, hq⟩ := (mem_nonNullDates _ _).mp h
          obtain ⟨p, hp, hpe⟩ := List.mem_map.mp hq
          refine List.mem_append.mpr (Or.inr (List.mem_map.mpr ⟨p, hp, ?_⟩))
          have := congrArg Prod.fst hpe
          simpa using this
      obtain ⟨e, _, hlt, hshift, _⟩ := ingestPlan_dates col s entries _ hplan
      have hcol2 : col ≠ "WEFFRP_value" := by simpa using hcolb
      rw [hshift]
      unfold shiftedDate
      rw [hcolb]
      exact le_of_lt hlt
  · have hw := watermark_mem_of_ne s hn
    have : watermark s ∈ nonNullDates (ingestState col s entries) := by
      unfold ingestState
      rw [nonNullDates, List.filterMap_append, ← nonNullDates, ← nonNullDates]
      exact List.mem_append.mpr
        (Or.inl (nonNull_applyIndUpdates_mono _ s _ hw))
    exact le_watermark_of_mem _ _ this

theorem ddStep_invalid (col : String) (prev : IndDate)
    (dd : List (IndDate × Rat)) (e : IndEntry)
    (h : convVal col e.val = none) : ddStep col prev dd e = dd := by
  unfold ddStep
  by_cases hg : (col == "WEFFRP_value"
      && ((if col == "WEFFRP_value" then e.date - 5 else e.date) == prev)) = true
  · rw [if_pos hg]
  · rw [if_neg hg, h]

theorem buildDateData_nil (col : String) (prev : IndDate) (nd : List IndEntry)
    (h : ∀ e ∈ nd, convVal col e.val = none) :
    buildDateData col prev nd = [] := by
  unfold buildDateData
  have haux : ∀ (l : List IndEntry) (acc : List (IndDate × Rat)),
      (∀ e ∈ l, convVal col e.val = none) → l.foldl (ddStep col prev) acc = acc := by
    intro l
    induction l with
    | nil => intro acc _; rfl
    | cons a rest ih =>
      intro acc hl
      rw [List.foldl_cons, ddStep_invalid col prev acc a (hl a (List.mem_cons_self _ _))]
      exact ih acc (fun e he => hl e (List.mem_cons_of_mem _ he))
  exact haux nd [] h

/-- C4 counterexample.  For the weekly federal-funds column, after a
successful first run over entries dated 730135 and 730136 against a
watermark of 730130 (which inserts the shifted date 730131), a second
run over the unchanged series performs an update — it re-stores value
2 at date 730130 — refuting "the second run performs zero inserts and
zero updates". -/
theorem claim4_counterexample :
    (ingestPlan "WEFFRP_value"
      (ingestState "WEFFRP_value" [(730130, some 1)]
        [⟨730135, RawVal.num 2⟩, ⟨730136, RawVal.num 3⟩])
      [⟨730135, RawVal.num 2⟩, ⟨730136, RawVal.num 3⟩]).updates
      = [(2, 730130)] := by
  decide

/-- C4 (corrected).  Idempotence on the watermark: for every column
other than the weekly federal funds rate, a second ingestion run
against an unchanged upstream series performs zero updates and zero
inserts.  Amendment forced by the counterexample: the weekly federal
funds rate column is excluded — its 5-day back-shift can land entries
below the new watermark, which are then re-stored on every run. -/
theorem claim4_idempotence_amended :
    ∀ (col : String) (s : IndState) (entries : List IndEntry),
      col ≠ "WEFFRP_value" →
      (ingestPlan col (ingestState col s entries) entries).updates = [] ∧
      (ingestPlan col (ingestState col s entries) entries).inserts = [] := by
  intro col s entries hcol
  have hcolb : (col == "WEFFRP_value") = false := by simpa using hcol
  have hdd : buildDateData col (watermark (ingestState col s entries))
      (newData (watermark (ingestState col s entries)) entries) = [] := by
    apply buildDateData_nil
    intro e he
    cases hcv : convVal col e.val with
    | none => rfl
    | some q =>
      exfalso
      obtain ⟨he2, hlt2⟩ := mem_newData _ entries e he
      have hlt1 : watermark s < e.date :=
        lt_of_le_of_lt (watermark_le_ingest col s entries hcolb) hlt2
      have hmem := ingest_nonNull_of_valid col s entries e q hcolb he2 hlt1 hcv
      have := le_watermark_of_mem _ _ hmem
      exact absurd hlt2 (not_lt.mpr this)
  constructor
  · unfold ingestPlan
    simp only
    rw [hdd]
    rfl
  · unfold ingestPlan
    simp only
    rw [hdd]
    rfl

/-- Witness for C4: the amended idempotence at a concrete monthly
column, state and entry list. -/
theorem claim4_idempotence_amended_witness :
    ("MEFFRP_value" ≠ "WEFFRP_value") ∧
    ((ingestPlan "MEFFRP_value"
        (ingestState "MEFFRP_value" [(730130, some 1)] [⟨730132, RawVal.num 5⟩])
        [⟨730132, RawVal.num 5⟩]).updates = [] ∧
     (ingestPlan "MEFFRP_value"
        (ingestState "MEFFRP_value" [(730130, some 1)] [⟨730132, RawVal.num 5⟩])
        [⟨730132, RawVal.num 5⟩]).inserts = []) :=
  ⟨by decide,
   claim4_idempotence_amended "MEFFRP_value" [(730130, some 1)]
     [⟨730132, RawVal.num 5⟩] (by decide)⟩

/-! ## C6: error handling of the fetch loops -/

/-- C6 counterexample.  In `process_economic_indicators` there is no
per-pair handler: a fetch failure other than `TypeError` propagates
and aborts the loop, so with a failing first pair the second pair is
never processed and the loop returns the exception — refuting
"process_economic_indicators continues processing all remaining
(indicator, interval) pairs". -/
theorem claim6_counterexample :
    processIndicatorPairs
        [{ fetch := { withArg := Except.error (PyErr.other "fetch failed"),
                      withoutArg := Except.error (PyErr.other "fetch failed") },
           argful := false },
         { fetch := { withArg := Except.ok [], withoutArg := Except.ok [] },
           argful := false }]
      = Except.error (PyErr.other "fetch failed") := rfl

/-- C6 (corrected).  Error isolation holds for the per-asset
event-kind loop: a raised fetch or parse for one kind contributes
exactly one warning and no events, and the other kinds' warnings and
events are unchanged.  Amendment forced by the counterexample: in the
indicator loop only a `TypeError` raised by the argumentful fetch call
is handled (by retrying without the argument); any other fetch or
parse failure aborts the remaining indicator pairs (the orchestrator
`resolve_EIE` catches it one level up and proceeds to event
processing). -/
theorem claim6_error_isolation_amended :
    (∀ (xs : List (String × Except PyErr (List String × List NewEvent)))
        (kind : String) (e : PyErr)
        (ys : List (String × Except PyErr (List String × List NewEvent))),
      processEventKinds (xs ++ (kind, Except.error e) :: ys)
        = ((processEventKinds xs).1
            ++ kindExceptionWarning kind :: (processEventKinds ys).1,
           (processEventKinds xs).2 ++ (processEventKinds ys).2)) ∧
    (∀ (p : IndPair) (ps : List IndPair) (e : PyErr),
      indPairStep p = Except.error e →
      processIndicatorPairs (p :: ps) = Except.error e) ∧
    (∀ (d : List RawIndEntry) (f : IndFetch),
      f.withArg = Except.error PyErr.typeError → f.withoutArg = Except.ok d →
      fetchIndicatorData f true = Except.ok d) := by
  refine ⟨?_, ?_, ?_⟩
  · intro xs kind e ys
    induction xs with
    | nil => simp [processEventKinds]
    | cons x rest ih =>
      obtain ⟨k0, r0⟩ := x
      simp only [List.cons_append, processEventKinds, ih]
      cases r0 with
      | error e0 => simp [ih]
      | ok out => simp [ih]
  · intro p ps e h
    simp [processIndicatorPairs, h]
  · intro d f h1 h2
    simp [fetchIndicatorData, h1, h2]

/-- Witness for C6: the abort clause applied at a concrete failing
pair followed by a healthy pair. -/
theorem claim6_error_isolation_amended_witness :
    (indPairStep
        { fetch := { withArg := Except.error (PyErr.other "boom"),
                     withoutArg := Except.error (PyErr.other "boom") },
          argful := true } = Except.error (PyErr.other "boom")) ∧
    processIndicatorPairs
        [{ fetch := { withArg := Except.error (PyErr.other "boom"),
                      withoutArg := Except.error (PyErr.other "boom") },
           argful := true },
         { fetch := { withArg := Except.ok [], withoutArg := Except.ok [] },
           argful := false }]
      = Except.error (PyErr.other "boom") :=
  ⟨rfl,
   claim6_error_isolation_amended.2.1
     { fetch := { withArg := Except.error (PyErr.other "boom"),
                  withoutArg := Except.error (PyErr.other "boom") },
       argful := true }
     [{ fetch := { withArg := Except.ok [], withoutArg := Except.ok [] },
        argful := false }]
     (PyErr.other "boom") rfl⟩

/-! ## Shared lemmas about the event reconciler -/

theorem sanitizeJVal_eq (v : JVal) : sanitizeJVal v = v := by
  cases v <;> rfl

theorem sanitizePayload_eq (p : Payload) : sanitizePayload p = p := by
  unfold sanitizePayload
  refine (List.map_congr_left ?_).trans (List.map_id p)
  intro kv _
  rw [sanitizeJVal_eq]
  rfl

theorem lookup_filter_ne (k : String) (p : Payload) :
    (p.filter (fun kv => kv.1 ≠ k)).lookup k = none := by
  induction p with
  | nil => rfl
  | cons kv rest ih =>
    rw [List.filter_cons]
    by_cases h : kv.1 = k
    · have hd : decide (kv.1 ≠ k) = false := by simp [h]
      rw [hd]
      simpa using ih
    · have hd : decide (kv.1 ≠ k) = true := by simp [h]
      have hb : (k == kv.1) = false := by simpa using (Ne.symm h)
      rw [hd]
      simp only [if_true]
      rw [List.lookup_cons]
      simp only [hb]
      exact ih

theorem filter_ne_of_lookup_none (k : String) (p : Payload)
    (h : p.lookup k = none) : p.filter (fun kv => kv.1 ≠ k) = p := by
  induction p with
  | nil => rfl
  | cons kv rest ih =>
    obtain ⟨k0, v0⟩ := kv
    rw [List.lookup_cons] at h
    by_cases hb : (k == k0) = true
    · rw [hb] at h
      cases h
    · have hb2 : (k == k0) = false := by simpa using hb
      rw [hb2] at h
      have hne : k0 ≠ k := fun hc => hb (by simp [hc])
      rw [List.filter_cons]
      have hd : decide ((k0, v0).1 ≠ k) = true := by simpa using hne
      rw [hd]
      simp only [if_true, List.cons.injEq, true_and]
      exact ih h

theorem insertedNotes_source (details : Option Payload) :
    pyGet (insertedNotes details) "source" = none := by
  cases details with
  | none => rfl
  | some p =>
    show ((sanitizePayload p).filter (fun kv => kv.1 ≠ "source")).lookup "source" = none
    exact lookup_filter_ne "source" (sanitizePayload p)

theorem insertedNotes_of_no_source (p : Payload)
    (h : p.lookup "source" = none) : insertedNotes (some p) = some p := by
  have he : insertedNotes (some p)
      = some ((sanitizePayload p).filter (fun kv => kv.1 ≠ "source")) := rfl
  rw [he, sanitizePayload_eq, filter_ne_of_lookup_none "source" p h]

theorem isNewActual_pk (e : NewEvent) (h : isNewActual e = true) :
    e.event_pk = 2 := by
  unfold isNewActual at h
  simp only [Bool.and_eq_true, beq_iff_eq] at h
  exact h.1.1

theorem isExpectedRow_pk (r : Row) (h : isExpectedRow r = true) :
    r.eventPk = 2 := by
  unfold isExpectedRow at h
  simp only [Bool.and_eq_true, beq_iff_eq] at h
  exact h.1

theorem reconcile_cons (rows : List Row) (e : NewEvent) (rest : List NewEvent) :
    reconcile rows (e :: rest) =
      { updates := (reconcileStep rows e).1 ++ (reconcile rows rest).updates
        deletes := (reconcileStep rows e).2.1 ++ (reconcile rows rest).deletes
        newEvents := (reconcileStep rows e).2.2 ++ (reconcile rows rest).newEvents } :=
  rfl

theorem reconcileStep_of_some (rows : List Row) (e : NewEvent)
    (pk : Nat) (isExp : Bool)
    (h : findExisting rows (eventKey e) = some (pk, isExp)) :
    (reconcileStep rows e).2.1 = [] ∧ (reconcileStep rows e).2.2 = [] := by
  unfold reconcileStep
  rw [h]
  cases hc : isExp && isNewActual e with
  | false => simp [hc]
  | true =>
    simp only [hc, if_true]
    cases e.details <;> simp

theorem reconcileStep_promote (rows : List Row) (e : NewEvent)
    (pk : Nat) (p : Payload)
    (h : findExisting rows (eventKey e) = some (pk, true))
    (ha : isNewActual e = true) (hd : e.details = some p) :
    reconcileStep rows e = ([(pk, sanitizePayload p)], [], []) := by
  unfold reconcileStep
  rw [h, ha, hd]
  rfl

theorem reconcileStep_of_none (rows : List Row) (e : NewEvent)
    (h : findExisting rows (eventKey e) = none) :
    reconcileStep rows e =
      ([], (if isNewActual e then
        (match newEventQyKey e with
         | some k => expectedQyPks rows k
         | none => []) ++
        (match e.start_date with
         | some d => expectedStartPks rows d
         | none => [])
      else []), [e]) := by
  unfold reconcileStep
  rw [h]

theorem reconcile_newEvents (rows : List Row) (events : List NewEvent) :
    (reconcile rows events).newEvents
      = events.filter (fun e => (findExisting rows (eventKey e)).isNone) := by
  induction events with
  | nil => rfl
  | cons e rest ih =>
    rw [reconcile_cons]
    simp only
    rw [ih, List.filter_cons]
    cases hf : findExisting rows (eventKey e) with
    | none =>
      rw [(reconcileStep_of_none rows e hf)]
      simp [hf]
    | some pr =>
      obtain ⟨pk, isExp⟩ := pr
      rw [(reconcileStep_of_some rows e pk isExp hf).2]
      simp [hf]

theorem mem_reconcile_updates (rows : List Row) (events : List NewEvent)
    (e : NewEvent) (u : Nat × Payload) (he : e ∈ events)
    (hu : u ∈ (reconcileStep rows e).1) :
    u ∈ (reconcile rows events).updates := by
  induction events with
  | nil => cases he
  | cons a rest ih =>
    rw [reconcile_cons]
    rcases List.mem_cons.mp he with rfl | h2
    · exact List.mem_append.mpr (Or.inl hu)
    · exact List.mem_append.mpr (Or.inr (ih h2))

theorem mem_reconcile_deletes (rows : List Row) (events : List NewEvent)
    (e : NewEvent) (pk : Nat) (he : e ∈ events)
    (hpk : pk ∈ (reconcileStep rows e).2.1) :
    pk ∈ (reconcile rows events).deletes := by
  induction events with
  | nil => cases he
  | cons a rest ih =>
    rw [reconcile_cons]
    rcases List.mem_cons.mp he with rfl | h2
    · exact List.mem_append.mpr (Or.inl hpk)
    · exact List.mem_append.mpr (Or.inr (ih h2))

theorem findExisting_none_iff (rows : List Row) (k : EventKey) :
    findExisting rows k = none ↔ ∀ r ∈ rows, rowKey r ≠ k := by
  unfold findExisting
  rw [Option.map_eq_none', List.find?_eq_none]
  constructor
  · intro h r hr
    have := h r hr
    simpa using this
  · intro h r hr
    simpa using h r hr

theorem insertRowsGo_notes (basePk baseId : Nat) :
    ∀ (i : Nat) (l : List NewEvent) (r : Row), r ∈ insertRowsGo basePk baseId i l →
      ∃ e ∈ l, r.notes = insertedNotes e.details ∧ r.eventPk = e.event_pk ∧
        r.ann = e.announcement_date ∧ r.start = e.start_date := by
  intro i l
  induction l generalizing i with
  | nil => intro r hr; cases hr
  | cons e rest ih =>
    intro r hr
    rcases List.mem_cons.mp hr with rfl | h2
    · exact ⟨e, List.mem_cons_self _ _, rfl, rfl, rfl, rfl⟩
    · obtain ⟨e0, he0, hprop⟩ := ih (i + 1) r h2
      exact ⟨e0, List.mem_cons_of_mem _ he0, hprop⟩

/-- C10 (confirmed).  Every row the bulk-insert path of
`batch_insert_events` writes has the `source` key removed from its
detail payload, so a calendar-derived event inserted as a new row no
longer carries the calendar-source tag, and on later runs it is
recognized as a placeholder exactly when its payload still carries an
`estimate` field. -/
theorem claim10_source_removed :
    ∀ (base : List Row) (newEvents : List NewEvent) (r : Row),
      r ∈ insertRowsFrom base newEvents →
      pyGet r.notes "source" = none ∧
      isExpectedRow r = (r.eventPk == 2 && (pyGet r.notes "estimate").isSome) := by
  intro base newEvents r hr
  obtain ⟨e, _, hn, _, _, _⟩ := insertRowsGo_notes (nextPk base) (nextId base) 0
    newEvents r hr
  constructor
  · rw [hn]
    exact insertedNotes_source e.details
  · cases hd : e.details with
    | none =>
      rw [hd] at hn
      have hn2 : r.notes = none := hn
      unfold isExpectedRow pyGet
      rw [hn2]
      simp
    | some p =>
      rw [hd] at hn
      have hn2 : r.notes
          = some ((sanitizePayload p).filter (fun kv => kv.1 ≠ "source")) := hn
      have hsrc : ((sanitizePayload p).filter
          (fun kv => kv.1 ≠ "source")).lookup "source" = none :=
        lookup_filter_ne "source" (sanitizePayload p)
      have hfun : (fun kv : String × JVal => decide (kv.1 ≠ "source"))
          = fun kv : String × JVal => !decide (kv.1 = "source") := by
        funext kv
        simp [decide_not]
      have hsrc2 : List.lookup "source" (List.filter
          (fun kv : String × JVal => !decide (kv.1 = "source"))
          (sanitizePayload p)) = none := by
        rw [← hfun]
        exact hsrc
      unfold isExpectedRow pyGet
      rw [hn2]
      simp [hsrc2]

/-- Witness for C10: the bulk-insert path at one concrete
calendar-shaped event whose details carry both an estimate and a
source tag. -/
theorem claim10_source_removed_witness :
    (∃ r : Row, r ∈ insertRowsFrom []
        [{ event_pk := 2, announcement_date := some ⟨2024, 3, 31⟩,
           start_date := some ⟨2024, 4, 25⟩,
           details := some [("quarter", JVal.str "Q1"), ("year", JVal.jint 2024),
             ("estimate", JVal.str "1.5"),
             ("source", JVal.str "earnings_calendar")] }] ∧
      pyGet r.notes "source" = none ∧
      isExpectedRow r = (r.eventPk == 2 && (pyGet r.notes "estimate").isSome)) := by
  refine ⟨{ pk := 1, id := 1, eventPk := 2,
            ann := some ⟨2024, 3, 31⟩, start := some ⟨2024, 4, 25⟩,
            notes := some [("quarter", JVal.str "Q1"), ("year", JVal.jint 2024),
              ("estimate", JVal.str "1.5")] }, ?_, ?_⟩
  · decide
  · exact claim10_source_removed []
      [{ event_pk := 2, announcement_date := some ⟨2024, 3, 31⟩,
         start_date := some ⟨2024, 4, 25⟩,
         details := some [("quarter", JVal.str "Q1"), ("year", JVal.jint 2024),
           ("estimate", JVal.str "1.5"),
           ("source", JVal.str "earnings_calendar")] }]
      { pk := 1, id := 1, eventPk := 2,
        ann := some ⟨2024, 3, 31⟩, start := some ⟨2024, 4, 25⟩,
        notes := some [("quarter", JVal.str "Q1"), ("year", JVal.jint 2024),
          ("estimate", JVal.str "1.5")] }
      (by decide)

/-! ## C2: event identity uniqueness -/

theorem rowKey_applyRowUpdates (ups : List (Nat × Payload)) (r : Row) :
    rowKey (applyRowUpdates ups r) = rowKey r := by
  induction ups generalizing r with
  | nil => rfl
  | cons u rest ih =>
    show rowKey (applyRowUpdates rest
      (if u.1 == r.pk then { r with notes := some u.2 } else r)) = rowKey r
    by_cases h : (u.1 == r.pk) = true
    · rw [if_pos h, ih]
      rfl
    · rw [if_neg h, ih]

theorem insertRowsGo_keys (basePk baseId : Nat) :
    ∀ (i : Nat) (l : List NewEvent),
      (insertRowsGo basePk baseId i l).map rowKey = l.map eventKey := by
  intro i l
  induction l generalizing i with
  | nil => rfl
  | cons e rest ih =>
    show rowKey _ :: (insertRowsGo basePk baseId (i + 1) rest).map rowKey = _
    rw [ih (i + 1)]
    rfl

/-- C2 counterexample.  Two incoming events with the same identity key
(two rate events dated 2024-01-01 with different values) are checked
only against the stored rows, not against each other, so both are
inserted and the stored set ends with a duplicated identity key —
refuting "when several incoming events share one identity key they
are merged". -/
theorem claim2_counterexample :
    ¬ ((finalRows []
        [{ event_pk := 4, announcement_date := some ⟨2024, 1, 1⟩,
           start_date := some ⟨2024, 1, 1⟩,
           details := some [("fvalue", JVal.str "5.5")] },
         { event_pk := 4, announcement_date := some ⟨2024, 1, 1⟩,
           start_date := some ⟨2024, 1, 1⟩,
           details := some [("fvalue", JVal.str "5.25")] }]).map rowKey).Nodup := by
  decide

/-- C2 (corrected).  Identity-key uniqueness after reconciliation:
if the stored event set has pairwise-distinct identity keys and the
incoming batch has pairwise-distinct identity keys, the stored set
after `batch_insert_events` has pairwise-distinct identity keys
(exact-key matches are never re-inserted, updates never change a key,
deletions only remove rows).  Amendment forced by the counterexample:
incoming events sharing one identity key are each inserted, never
merged, so the batch itself must be duplicate-free for the invariant
to hold. -/
theorem claim2_identity_uniqueness_amended :
    ∀ (rows : List Row) (events : List NewEvent),
      (rows.map rowKey).Nodup → (events.map eventKey).Nodup →
      ((finalRows rows events).map rowKey).Nodup := by
  intro rows events h1 h2
  unfold finalRows
  simp only
  rw [List.map_append]
  have hkept : ((rows.filter (fun r =>
      !(reconcile rows events).deletes.contains r.pk)).map
        (applyRowUpdates (reconcile rows events).updates)).map rowKey
      = (rows.filter (fun r =>
          !(reconcile rows events).deletes.contains r.pk)).map rowKey := by
    rw [List.map_map]
    refine List.map_congr_left ?_
    intro r _
    exact rowKey_applyRowUpdates _ r
  rw [hkept]
  rw [insertRowsFrom, insertRowsGo_keys]
  have hsub1 : ((rows.filter (fun r =>
      !(reconcile rows events).deletes.contains r.pk)).map rowKey).Sublist
      (rows.map rowKey) :=
    (List.filter_sublist rows).map rowKey
  have hsub2 : (((reconcile rows events).newEvents).map eventKey).Sublist
      (events.map eventKey) := by
    rw [reconcile_newEvents]
    exact (List.filter_sublist events).map eventKey
  rw [List.nodup_append]
  refine ⟨h1.sublist hsub1, h2.sublist hsub2, ?_⟩
  intro k hk1 hk2
  obtain ⟨e, he, hke⟩ := List.mem_map.mp hk2
  rw [reconcile_newEvents] at he
  have hnone : findExisting rows (eventKey e) = none := by
    have := (List.mem_filter.mp he).2
    simpa using this
  obtain ⟨r, hr, hkr⟩ := List.mem_map.mp hk1
  have hrrows : r ∈ rows := List.mem_of_mem_filter hr
  exact (findExisting_none_iff rows (eventKey e)).mp hnone r hrrows
    (by rw [hkr, ← hke])

/-- Witness for C2: the amended uniqueness at a concrete stored set
(one placeholder and one dividend) and a key-distinct batch. -/
theorem claim2_identity_uniqueness_amended_witness :
    (([{ pk := 3, id := 3, eventPk := 1, ann := some ⟨2024, 3, 1⟩,
         start := some ⟨2024, 3, 5⟩,
         notes := some [("dividend_amount", JVal.str "0.24")] }] : List Row).map
      rowKey).Nodup ∧
    (([{ event_pk := 4, announcement_date := some ⟨2024, 1, 1⟩,
         start_date := some ⟨2024, 1, 1⟩,
         details := some [("fvalue", JVal.str "5.5")] }] : List NewEvent).map
      eventKey).Nodup ∧
    ((finalRows
        [{ pk := 3, id := 3, eventPk := 1, ann := some ⟨2024, 3, 1⟩,
           start := some ⟨2024, 3, 5⟩,
           notes := some [("dividend_amount", JVal.str "0.24")] }]
        [{ event_pk := 4, announcement_date := some ⟨2024, 1, 1⟩,
           start_date := some ⟨2024, 1, 1⟩,
           details := some [("fvalue", JVal.str "5.5")] }]).map rowKey).Nodup :=
  ⟨by decide, by decide,
   claim2_identity_uniqueness_amended
     [{ pk := 3, id := 3, eventPk := 1, ann := some ⟨2024, 3, 1⟩,
        start := some ⟨2024, 3, 5⟩,
        notes := some [("dividend_amount", JVal.str "0.24")] }]
     [{ event_pk := 4, announcement_date := some ⟨2024, 1, 1⟩,
        start_date := some ⟨2024, 1, 1⟩,
        details := some [("fvalue", JVal.str "5.5")] }]
     (by decide) (by decide)⟩

/-! ## C1: placeholder promotion -/

theorem find?_key_unique (rows : List Row) (P : Row) (hP : P ∈ rows)
    (hnd : (rows.map rowKey).Nodup) :
    rows.find? (fun r => rowKey r == rowKey P) = some P := by
  induction rows with
  | nil => cases hP
  | cons a rest ih =>
    rw [List.map_cons] at hnd
    have hnotin : rowKey a ∉ rest.map rowKey := (List.nodup_cons.mp hnd).1
    have hrest : (rest.map rowKey).Nodup := (List.nodup_cons.mp hnd).2
    by_cases h : (rowKey a == rowKey P) = true
    · have hfind : List.find? (fun r => rowKey r == rowKey P) (a :: rest)
          = some a := by
        simp only [List.find?_cons, h, if_true]
      rw [hfind]
      rcases List.mem_cons.mp hP with rfl | h2
      · rfl
      · exfalso
        apply hnotin
        rw [beq_iff_eq.mp h]
        exact List.mem_map_of_mem rowKey h2
    · have hfind : List.find? (fun r => rowKey r == rowKey P) (a :: rest)
          = List.find? (fun r => rowKey r == rowKey P) rest := by
        simp only [List.find?_cons, h, if_false]
      rw [hfind]
      rcases List.mem_cons.mp hP with rfl | h2
      · exact absurd (by simp) h
      · exact ih h2 hrest

theorem findExisting_self (rows : List Row) (P : Row) (hP : P ∈ rows)
    (hnd : (rows.map rowKey).Nodup) :
    findExisting rows (rowKey P) = some (P.pk, isExpectedRow P) := by
  unfold findExisting
  rw [find?_key_unique rows P hP hnd]
  rfl

theorem mem_expectedQyPks (rows : List Row) (r : Row) (k : String × Int)
    (hr : r ∈ rows) (hexp : isExpectedRow r = true)
    (hqy : rowQyIndexKey r = some k) : r.pk ∈ expectedQyPks rows k := by
  unfold expectedQyPks
  exact List.mem_map.mpr ⟨r, List.mem_filter.mpr ⟨hr, by simp [hexp, hqy]⟩, rfl⟩

theorem mem_expectedStartPks (rows : List Row) (r : Row) (d : PyDate)
    (hr : r ∈ rows) (hexp : isExpectedRow r = true)
    (hst : r.start = some d) : r.pk ∈ expectedStartPks rows d := by
  unfold expectedStartPks
  exact List.mem_map.mpr ⟨r, List.mem_filter.mpr ⟨hr, by simp [hexp, hst]⟩, rfl⟩

theorem newEventQyKey_of_fields (A : NewEvent) (p : Payload) (q : String)
    (y : Int) (hdet : A.details = some p)
    (hq : p.lookup "quarter" = some (JVal.str q)) (hqne : q ≠ "")
    (hy : p.lookup "year" = some (JVal.jint y)) (hyne : y ≠ 0) :
    newEventQyKey A = some (q, y) := by
  unfold newEventQyKey pyGet
  rw [hdet]
  simp [hq, hy, pyTruthy, hqne, hyne]

theorem rowQyIndexKey_from_notes (r : Row) (p : Payload) (q : String)
    (y : Int) (hn : r.notes = some p)
    (hq : p.lookup "quarter" = some (JVal.str q)) (hqne : q ≠ "")
    (hy : p.lookup "year" = some (JVal.jint y)) (hyne : y ≠ 0) :
    rowQyIndexKey r = some (q, y) := by
  unfold rowQyIndexKey extractQy pyGet pyOr
  rw [hn]
  simp [hq, hy, pyTruthy, pyStr, hqne, hyne]

theorem isExpectedRow_false_of_payload (r : Row) (p : Payload)
    (hn : r.notes = some p) (hest : p.lookup "estimate" = none)
    (hsrc : p.lookup "source" = none) : isExpectedRow r = false := by
  unfold isExpectedRow
  rw [hn]
  simp [hest, hsrc]

/-- C1 (confirmed).  Placeholder promotion in `batch_insert_events`.
Given a stored set with unique identity keys containing a placeholder
`P`, and an incoming actual earnings event `A` with payload `p`:
(i) if `A`'s identity key equals `P`'s, the plan rewrites `P`'s detail
payload with the actual payload and `A` is not inserted; (ii) if no
stored key matches `A`, `A` is inserted as a fresh row and every
placeholder matched by `A`'s (quarter, year) index key or by its start
date is deleted; (iii) in the spec's scenario — the batch is exactly
`[A]`, `A` carries truthy quarter/year fields matching `P`'s index
entry, no estimate or source key, and `P` is the only stored earnings
event filed under that quarter — exactly one earnings event for that
quarter remains, a fresh row carrying the actual payload, and no
placeholder for that quarter persists. -/
theorem claim1_placeholder_promotion :
    ∀ (rows : List Row) (events : List NewEvent) (P : Row) (A : NewEvent)
      (p : Payload),
      (rows.map rowKey).Nodup → P ∈ rows → isExpectedRow P = true →
      isNewActual A = true → A.details = some p →
      ((A ∈ events → eventKey A = rowKey P →
        (P.pk, p) ∈ (reconcile rows events).updates ∧
        A ∉ (reconcile rows events).newEvents) ∧
       (A ∈ events → (∀ r ∈ rows, rowKey r ≠ eventKey A) →
        A ∈ (reconcile rows events).newEvents ∧
        (∀ r ∈ rows, isExpectedRow r = true →
          ((newEventQyKey A).isSome = true ∧ rowQyIndexKey r = newEventQyKey A) ∨
            (∃ d : PyDate, A.start_date = some d ∧ r.start = some d) →
          r.pk ∈ (reconcile rows events).deletes)) ∧
       (∀ (q : String) (y : Int),
        (∀ r ∈ rows, rowKey r ≠ eventKey A) →
        p.lookup "quarter" = some (JVal.str q) → q ≠ "" →
        p.lookup "year" = some (JVal.jint y) → y ≠ 0 →
        p.lookup "estimate" = none → p.lookup "source" = none →
        rowQyIndexKey P = some (q, y) →
        (∀ r ∈ rows, r.eventPk = 2 → rowQyIndexKey r = some (q, y) → r = P) →
        ∃ newRow : Row,
          earningsForQuarter (finalRows rows [A]) (q, y) = [newRow] ∧
          newRow.notes = some p ∧ isExpectedRow newRow = false ∧
          newRow.eventPk = 2 ∧ newRow.ann = A.announcement_date ∧
          newRow.start = A.start_date ∧
          ∀ r ∈ finalRows rows [A],
            ¬(isExpectedRow r = true ∧ rowQyIndexKey r = some (q, y)))) := by
  intro rows events P A p hnd hP hexp hact hdet
  refine ⟨?_, ?_, ?_⟩
  · intro hAe hkey
    have hfind : findExisting rows (eventKey A) = some (P.pk, true) := by
      rw [hkey, findExisting_self rows P hP hnd, hexp]
    have hstep := reconcileStep_promote rows A P.pk p hfind hact hdet
    constructor
    · have hel : (P.pk, p) ∈ (reconcileStep rows A).1 := by
        rw [hstep]
        simp [sanitizePayload_eq]
      exact mem_reconcile_updates rows events A _ hAe hel
    · intro hmem
      rw [reconcile_newEvents] at hmem
      have h2 := (List.mem_filter.mp hmem).2
      rw [hfind] at h2
      simp at h2
  · intro hAe hkeys
    have hnone : findExisting rows (eventKey A) = none :=
      (findExisting_none_iff rows _).mpr hkeys
    constructor
    · rw [reconcile_newEvents]
      exact List.mem_filter.mpr ⟨hAe, by simp [hnone]⟩
    · intro r hr hrexp hmatch
      apply mem_reconcile_deletes rows events A r.pk hAe
      rw [reconcileStep_of_none rows A hnone]
      show r.pk ∈ (if isNewActual A then _ else [])
      rw [hact]
      simp only [if_true]
      rcases hmatch with ⟨hqysome, hqyeq⟩ | ⟨d, hAd, hrd⟩
      · obtain ⟨k, hk⟩ := Option.isSome_iff_exists.mp hqysome
        rw [hk]
        refine List.mem_append.mpr (Or.inl ?_)
        exact mem_expectedQyPks rows r k hr hrexp (by rw [hqyeq, hk])
      · rw [hAd]
        refine List.mem_append.mpr (Or.inr ?_)
        exact mem_expectedStartPks rows r d hr hrexp hrd
  · intro q y hkeys hq hqne hy hyne hest hsrc hPqy honly
    have hnone : findExisting rows (eventKey A) = none :=
      (findExisting_none_iff rows _).mpr hkeys
    have hstep := reconcileStep_of_none rows A hnone
    have hAqy : newEventQyKey A = some (q, y) :=
      newEventQyKey_of_fields A p q y hdet hq hqne hy hyne
    have hplanU : (reconcile rows [A]).updates = [] := by
      rw [reconcile_cons, hstep]
      rfl
    have hplanN : (reconcile rows [A]).newEvents = [A] := by
      rw [reconcile_cons, hstep]
      rfl
    have hPdel : P.pk ∈ (reconcile rows [A]).deletes := by
      apply mem_reconcile_deletes rows [A] A P.pk (List.mem_singleton.mpr rfl)
      rw [hstep]
      show P.pk ∈ (if isNewActual A then _ else [])
      rw [hact]
      simp only [if_true]
      rw [hAqy]
      exact List.mem_append.mpr
        (Or.inl (mem_expectedQyPks rows P (q, y) hP hexp hPqy))
    have hpk2 : A.event_pk = 2 := isNewActual_pk A hact
    set kept := rows.filter
      (fun r => !(reconcile rows [A]).deletes.contains r.pk) with hkept
    have hkeptmap : kept.map (applyRowUpdates (reconcile rows [A]).updates)
        = kept := by
      rw [hplanU]
      exact (List.map_congr_left (fun r _ => rfl)).trans (List.map_id kept)
    have hfinal : finalRows rows [A]
        = kept ++ insertRowsFrom kept [A] := by
      show (rows.filter (fun r => !(reconcile rows [A]).deletes.contains r.pk)).map
            (applyRowUpdates (reconcile rows [A]).updates)
          ++ insertRowsFrom
            (rows.filter (fun r => !(reconcile rows [A]).deletes.contains r.pk))
            (reconcile rows [A]).newEvents
          = kept ++ insertRowsFrom kept [A]
      rw [← hkept, hkeptmap, hplanN]
    have hnotesA : insertedNotes A.details = some p := by
      rw [hdet]
      exact insertedNotes_of_no_source p hsrc
    refine ⟨{ pk := nextPk kept, id := nextId kept, eventPk := A.event_pk,
              ann := A.announcement_date, start := A.start_date,
              notes := insertedNotes A.details }, ?_⟩
    have hrows1 : insertRowsFrom kept [A]
        = [{ pk := nextPk kept, id := nextId kept, eventPk := A.event_pk,
             ann := A.announcement_date, start := A.start_date,
             notes := insertedNotes A.details }] := rfl
    have hQYnew : rowQyIndexKey
        { pk := nextPk kept, id := nextId kept, eventPk := A.event_pk,
          ann := A.announcement_date, start := A.start_date,
          notes := insertedNotes A.details } = some (q, y) := by
      refine rowQyIndexKey_from_notes _ p q y ?_ hq hqne hy hyne
      exact hnotesA
    have hexpNew : isExpectedRow
        { pk := nextPk kept, id := nextId kept, eventPk := A.event_pk,
          ann := A.announcement_date, start := A.start_date,
          notes := insertedNotes A.details } = false :=
      isExpectedRow_false_of_payload _ p hnotesA hest hsrc
    have hkeptnone : ∀ r ∈ kept,
        ¬(r.eventPk = 2 ∧ rowQyIndexKey r = some (q, y)) := by
      intro r hr hand
      have hrmem := List.mem_filter.mp hr
      have hrP : r = P := honly r hrmem.1 hand.1 hand.2
      have h2 := hrmem.2
      rw [hrP] at h2
      simp at h2
      exact h2 hPdel
    refine ⟨?_, ?_, hexpNew, hpk2, rfl, rfl, ?_⟩
    · rw [hfinal, hrows1]
      unfold earningsForQuarter
      rw [List.filter_append]
      have hleft : kept.filter
          (fun r => r.eventPk == 2 && rowQyIndexKey r == some (q, y)) = [] := by
        rw [List.filter_eq_nil_iff]
        intro r hr
        intro hc
        simp only [Bool.and_eq_true, beq_iff_eq] at hc
        exact hkeptnone r hr ⟨hc.1, hc.2⟩
      rw [hleft]
      have hright : ([{ pk := nextPk kept, id := nextId kept,
                        eventPk := A.event_pk, ann := A.announcement_date,
                        start := A.start_date,
                        notes := insertedNotes A.details }] : List Row).filter
            (fun r => r.eventPk == 2 && rowQyIndexKey r == some (q, y))
          = [{ pk := nextPk kept, id := nextId kept, eventPk := A.event_pk,
               ann := A.announcement_date, start := A.start_date,
               notes := insertedNotes A.details }] := by
        have hQY2 := hQYnew
        rw [hpk2] at hQY2
        rw [List.filter_cons]
        simp [hpk2, hQY2]
      rw [hright]
      rfl
    · exact hnotesA
    · intro r hr hand
      rw [hfinal, hrows1] at hr
      rcases List.mem_append.mp hr with hr2 | hr2
      · exact hkeptnone r hr2 ⟨isExpectedRow_pk r hand.1, hand.2⟩
      · rcases List.mem_singleton.mp hr2 with rfl
        rw [hexpNew] at hand
        cases hand.1

/-- Witness for C1: the promotion scenario at a concrete stored set —
a dividend row, a Q1-2024 placeholder — and one actual Q1-2024
earnings event with different dates. -/
theorem claim1_placeholder_promotion_witness :
    ∃ newRow : Row,
      earningsForQuarter (finalRows
        [{ pk := 3, id := 3, eventPk := 1, ann := some ⟨2024, 3, 1⟩,
           start := some ⟨2024, 3, 5⟩,
           notes := some [("dividend_amount", JVal.str "0.24")] },
         { pk := 7, id := 7, eventPk := 2, ann := some ⟨2024, 1, 10⟩,
           start := some ⟨2024, 2, 1⟩,
           notes := some [("quarter", JVal.str "Q1"), ("year", JVal.jint 2024),
             ("estimate", JVal.str "1.5")] }]
        [{ event_pk := 2, announcement_date := some ⟨2024, 3, 31⟩,
           start_date := some ⟨2024, 4, 25⟩,
           details := some [("quarter", JVal.str "Q1"),
             ("year", JVal.jint 2024)] }]) ("Q1", 2024) = [newRow] ∧
      newRow.notes
        = some [("quarter", JVal.str "Q1"), ("year", JVal.jint 2024)] ∧
      isExpectedRow newRow = false ∧
      newRow.eventPk = 2 ∧
      newRow.ann = ({ event_pk := 2,
                      announcement_date := some ⟨2024, 3, 31⟩,
                      start_date := some ⟨2024, 4, 25⟩,
                      details := some [("quarter", JVal.str "Q1"),
                        ("year", JVal.jint 2024)] } : NewEvent).announcement_date ∧
      newRow.start = ({ event_pk := 2,
                        announcement_date := some ⟨2024, 3, 31⟩,
                        start_date := some ⟨2024, 4, 25⟩,
                        details := some [("quarter", JVal.str "Q1"),
                          ("year", JVal.jint 2024)] } : NewEvent).start_date ∧
      ∀ r ∈ finalRows
        [{ pk := 3, id := 3, eventPk := 1, ann := some ⟨2024, 3, 1⟩,
           start := some ⟨2024, 3, 5⟩,
           notes := some [("dividend_amount", JVal.str "0.24")] },
         { pk := 7, id := 7, eventPk := 2, ann := some ⟨2024, 1, 10⟩,
           start := some ⟨2024, 2, 1⟩,
           notes := some [("quarter", JVal.str "Q1"), ("year", JVal.jint 2024),
             ("estimate", JVal.str "1.5")] }]
        [{ event_pk := 2, announcement_date := some ⟨2024, 3, 31⟩,
           start_date := some ⟨2024, 4, 25⟩,
           details := some [("quarter", JVal.str "Q1"),
             ("year", JVal.jint 2024)] }],
        ¬(isExpectedRow r = true ∧ rowQyIndexKey r = some ("Q1", 2024)) :=
  (claim1_placeholder_promotion
    [{ pk := 3, id := 3, eventPk := 1, ann := some ⟨2024, 3, 1⟩,
       start := some ⟨2024, 3, 5⟩,
       notes := some [("dividend_amount", JVal.str "0.24")] },
     { pk := 7, id := 7, eventPk := 2, ann := some ⟨2024, 1, 10⟩,
       start := some ⟨2024, 2, 1⟩,
       notes := some [("quarter", JVal.str "Q1"), ("year", JVal.jint 2024),
         ("estimate", JVal.str "1.5")] }]
    [{ event_pk := 2, announcement_date := some ⟨2024, 3, 31⟩,
       start_date := some ⟨2024, 4, 25⟩,
       details := some [("quarter", JVal.str "Q1"), ("year", JVal.jint 2024)] }]
    { pk := 7, id := 7, eventPk := 2, ann := some ⟨2024, 1, 10⟩,
      start := some ⟨2024, 2, 1⟩,
      notes := some [("quarter", JVal.str "Q1"), ("year", JVal.jint 2024),
        ("estimate", JVal.str "1.5")] }
    { event_pk := 2, announcement_date := some ⟨2024, 3, 31⟩,
      start_date := some ⟨2024, 4, 25⟩,
      details := some [("quarter", JVal.str "Q1"), ("year", JVal.jint 2024)] }
    [("quarter", JVal.str "Q1"), ("year", JVal.jint 2024)]
    (by decide) (by decide) (by decide) (by decide) rfl).2.2
    "Q1" 2024 (by decide) rfl (by decide) rfl (by decide) rfl rfl
    (by decide) (by decide)

end EIE
